import Mathlib

/-!
# Verification of `Ranked/Election.py`

A shallow embedding of the single-file ranked-choice-voting simulator
`src/Ranked/Election.py`, together with proofs about the claims of its
specification.

Modelling conventions:

* Candidate identifiers (Python strings / arbitrary hashables) are modelled
  as `Nat`.
* Python `dict`s (which preserve insertion order) are modelled as
  association lists `List (Cand × α)`.  Updating an existing key keeps its
  position (`alUpdate`), a new key is appended at the end, and `del`
  removes the entry preserving the order of the rest (`ddel`).
* Python's `random.choice` / `random.shuffle` draws are modelled by an
  oracle `χ : Nat → Nat` supplying one natural number per round; the round
  with `k` candidates already eliminated uses `χ k`, and `random.choice`
  over a list `l` picks `l.getD (χ k % l.length) 0`.
* `self.candidates[x]` raises `KeyError` in Python when `x` is absent.
  The embedding's dictionary lookups return `[]`/default instead; every
  theorem about full runs therefore assumes well-formed input
  (`WFballots`: non-empty rankings mentioning only registered candidates),
  under which the key is always present (this is proved as part of the
  run invariant `ElectionInv`), so the two semantics agree.
* The final statement `list(self.candidates.keys())[0]` raises
  `IndexError` on an empty dict; this is the one error path reachable
  with well-formed input (zero candidates), and it is modelled explicitly
  by `Except`.  `PyError.noCandidatesError` is the error *named by the
  specification*; the code never raises it, the constructor exists only
  so that the spec's statement can be formalised and refuted.
-/

namespace Ranked

abbrev Cand := Nat

/-- A ballot: `{ "weight": w, "ranking": [...] }`. -/
structure Ballot where
  weight : Nat
  ranking : List Cand
deriving DecidableEq

/-- Errors of the Python runtime relevant here.  `indexError` models the
`IndexError` raised by `list(self.candidates.keys())[0]` on an empty dict.
`noCandidatesError` is the error the specification names; it does not
exist anywhere in the source. -/
inductive PyError where
  | indexError
  | noCandidatesError
deriving DecidableEq

/-- A node of the Sankey flow graph: a Python dict with keys `"name"`,
`"layer"` and optionally `"value"`.  Python dict equality distinguishes a
dict with a `"value"` key from one without, hence `value : Option Nat`. -/
structure SankeyNode where
  name : Cand
  layer : Nat
  value : Option Nat
deriving DecidableEq

/-- A link of the Sankey flow graph: `{ "source": i, "target": j, "value": v }`. -/
structure SankeyLink where
  source : Nat
  target : Nat
  value : Nat
deriving DecidableEq

/-- The state of an `Election` object. `sankey_layer` models the local
counter of `single_winner_rcv` (kept in the state so that one round can be
described as a state transformer). -/
structure Election where
  ballots : List Ballot
  candidates : List (Cand × List Ballot)
  winner : Option Cand
  eliminated : List Cand
  number_of_candidates : Nat
  sankey_nodes : List SankeyNode
  sankey_links : List SankeyLink
  sankey_layer : Nat
deriving DecidableEq

/-- `Election.__init__` with given ballots and candidates (each candidate
mapped to an empty ballot list, in order). -/
def Election.start (ballots : List Ballot) (candidates : List Cand) : Election :=
  { ballots := ballots
    candidates := candidates.map (fun c => (c, []))
    winner := none
    eliminated := []
    number_of_candidates := 0
    sankey_nodes := []
    sankey_links := []
    sankey_layer := 1 }

/-! ## Association-list dictionaries (Python `dict` semantics) -/

/-- Lookup with an explicit default (Python raises `KeyError` instead; see
the module comment). -/
def alookup {α : Type} (d : List (Cand × α)) (c : Cand) (dflt : α) : α :=
  match d with
  | [] => dflt
  | (k, v) :: rest => if k = c then v else alookup rest c dflt

/-- `d[c] = f d[c]` when the key exists (updated in place, keeping its
position, as Python dicts do), `d[c] = init` appended at the end
otherwise. -/
def alUpdate {α : Type} (d : List (Cand × α)) (c : Cand) (f : α → α) (init : α) :
    List (Cand × α) :=
  match d with
  | [] => [(c, init)]
  | (k, v) :: rest => if k = c then (k, f v) :: rest else (k, v) :: alUpdate rest c f init

/-- `del d[c]`. -/
def ddel {α : Type} (d : List (Cand × α)) (c : Cand) : List (Cand × α) :=
  match d with
  | [] => []
  | (k, v) :: rest => if k = c then ddel rest c else (k, v) :: ddel rest c

/-- The keys of the dictionary, in order. -/
def dkeys {α : Type} (d : List (Cand × α)) : List Cand := d.map Prod.fst

/-- `self.candidates[c]`, the ballot list currently assigned to `c`. -/
def dget (d : List (Cand × List Ballot)) (c : Cand) : List Ballot := alookup d c []

/-! ## The source operations -/

/-- `len(self.candidates[c])`: the current ballot count of candidate `c`. -/
def countOf (e : Election) (c : Cand) : Nat := (dget e.candidates c).length

/-- The loop body of `assign_ballots`: each ballot is appended to the list
of the candidate ranked first on it (`ballot["ranking"][0]`; an empty
ranking would raise `IndexError` in Python — excluded by `WFballots`). -/
def assignLoop (d : List (Cand × List Ballot)) : List Ballot → List (Cand × List Ballot)
  | [] => d
  | b :: bs => assignLoop (alUpdate d (b.ranking.headD 0) (fun l => l ++ [b]) [b]) bs

/-- `assign_ballots`: freezes `number_of_candidates` and assigns every
ballot to its first choice. -/
def assign_ballots (e : Election) : Election :=
  { e with
    number_of_candidates := e.candidates.length
    candidates := assignLoop e.candidates e.ballots }

/-- `sort_candidates`: the candidates sorted by descending current ballot
count.  Python's `sorted` is a stable sort; the claims only depend on the
result being a permutation sorted by descending count, so a (likewise
stable) insertion sort is used. -/
def sort_candidates (e : Election) : List Cand :=
  List.insertionSort (fun a b => countOf e b ≤ countOf e a) (dkeys e.candidates)

/-- `tally` in `resolve_tie_random`: the ballot count of the first entry of
the reversed ranking, i.e. the minimum count. -/
def tallyMin (e : Election) : Nat := countOf e ((sort_candidates e).reverse.headD 0)

/-- `tied_candidates` in `resolve_tie_random`: the source starts from the
first entry of the reversed ranking and appends every further candidate
with the same count not already collected; since dict keys are unique this
list is exactly the sublist of candidates whose count equals the minimum. -/
def tiedCandidates (e : Election) : List Cand :=
  (sort_candidates e).reverse.filter (fun c => countOf e c = tallyMin e)

/-- `resolve_tie_random`: `random.choice(tied_candidates)`, with the random
draw supplied by `r`. -/
def resolve_tie_random (e : Election) (r : Nat) : Cand :=
  (tiedCandidates e).getD (r % (tiedCandidates e).length) 0

/-- The transfer loop of `single_winner_rcv`: for each ballot held by the
eliminated candidate, scan its ranking and hand it to the first candidate
not in the eliminated set (recording the transfer); if every ranked
candidate is eliminated the ballot is dropped (exhausted). -/
def firstNonElim (elim : List Cand) : List Cand → Option Cand
  | [] => none
  | c :: rest => if c ∈ elim then firstNonElim elim rest else some c

/-- One pass of the transfer loop over the eliminated candidate's ballots;
the state is the candidates dict together with the `transfers` counter
dict. -/
def transferBallots (elim : List Cand) (st : List (Cand × List Ballot) × List (Cand × Nat)) :
    List Ballot → List (Cand × List Ballot) × List (Cand × Nat)
  | [] => st
  | b :: bs =>
    match firstNonElim elim b.ranking with
    | none => transferBallots elim st bs
    | some c =>
        transferBallots elim
          (alUpdate st.1 c (fun l => l ++ [b]) [b], alUpdate st.2 c (fun n => n + 1) 1) bs

/-- `self.sankey_obj["nodes"].index(node)` (Python raises `ValueError` when
the node is absent; the embedding returns the length — unreachable in
runs, where every looked-up node was appended earlier). -/
def nodeIndex (nodes : List SankeyNode) (n : SankeyNode) : Nat :=
  nodes.findIdx (fun m => m = n)

/-- `starting_values`: each active candidate mapped to its pre-transfer
ballot count. -/
def startingValues (e : Election) : List (Cand × Nat) :=
  e.candidates.map (fun p => (p.1, p.2.length))

/-- The non-trivial branch of a round (the eliminated candidate holds at
least one ballot): transfer its ballots, delete it, and extend the Sankey
graph with the new layer's nodes, the surviving candidates' self-links and
the transfer links. -/
def roundStepTransfer (e : Election) (last_place : Cand) : Election :=
  let elim2 := last_place :: e.eliminated
  let sv := startingValues e
  let B := dget e.candidates last_place
  let tc := transferBallots elim2 (e.candidates, []) B
  let cands2 := ddel tc.1 last_place
  let layer2 := e.sankey_layer + 1
  let newNodes := ((dkeys cands2).filter (fun c => c ∉ elim2)).map
      (fun c => SankeyNode.mk c layer2 none)
  let nodes2 := e.sankey_nodes ++ newNodes
  let selfLinks := ((dkeys cands2).filter (fun c => c ≠ last_place)).map (fun c =>
      let vFrom : Option Nat := if layer2 < 3 then some (alookup sv c 0) else none
      SankeyLink.mk (nodeIndex nodes2 (SankeyNode.mk c (layer2 - 1) vFrom))
        (nodeIndex nodes2 (SankeyNode.mk c layer2 none)) (alookup sv c 0))
  let realLinks := tc.2.map (fun q =>
      let vFrom : Option Nat := if layer2 < 3 then some (alookup sv last_place 0) else none
      SankeyLink.mk (nodeIndex nodes2 (SankeyNode.mk last_place (layer2 - 1) vFrom))
        (nodeIndex nodes2 (SankeyNode.mk q.1 layer2 none)) q.2)
  { e with
    eliminated := elim2
    candidates := cands2
    sankey_layer := layer2
    sankey_nodes := nodes2
    sankey_links := e.sankey_links ++ selfLinks ++ realLinks }

/-- One iteration of the `while` loop of `single_winner_rcv`: eliminate the
last-place candidate; if it holds no ballots just delete it, otherwise
transfer its ballots and extend the Sankey graph. -/
def roundStep (e : Election) (r : Nat) : Election :=
  let last_place := resolve_tie_random e r
  if (dget e.candidates last_place).length = 0 then
    { e with eliminated := last_place :: e.eliminated,
             candidates := ddel e.candidates last_place }
  else roundStepTransfer e last_place

/-- The `while len(self.eliminated) < self.number_of_candidates - 1` loop,
run with explicit fuel (any fuel of at least `number_of_candidates - 1`
computes the loop's actual result, since each iteration grows
`eliminated`; this is proved below). -/
def runRounds (χ : Nat → Nat) : Nat → Election → Election
  | 0, e => e
  | fuel + 1, e =>
    if e.eliminated.length < e.number_of_candidates - 1 then
      runRounds χ fuel (roundStep e (χ e.eliminated.length))
    else e

/-- The initial Sankey nodes: one node at layer 1 for every candidate
holding at least one first-choice ballot, carrying its starting count. -/
def initialNodes (d : List (Cand × List Ballot)) : List SankeyNode :=
  (d.filter (fun p => 0 < p.2.length)).map (fun p => SankeyNode.mk p.1 1 (some p.2.length))

/-- The state of `single_winner_rcv` after `assign_ballots` and the initial
node layer have been set up — the first "round boundary". -/
def postAssign (e : Election) : Election :=
  let e1 := assign_ballots e
  { e1 with
    sankey_layer := 1
    sankey_nodes := e1.sankey_nodes ++ initialNodes e1.candidates }

/-- `single_winner_rcv`: assign ballots, lay down the initial nodes, run
the elimination loop, then set `winner` to the first remaining key
(`list(self.candidates.keys())[0]`, an `IndexError` when no candidate is
left). -/
def single_winner_rcv (e : Election) (χ : Nat → Nat) : Except PyError Election :=
  let e2 := postAssign e
  let e3 := runRounds χ e2.number_of_candidates e2
  match dkeys e3.candidates with
  | [] => Except.error PyError.indexError
  | c :: _ => Except.ok { e3 with winner := some c }

/-- The least `k` with `n ^ 3 ≤ 4 ^ k`, i.e. `⌈(3/2) · log2 n⌉` for
`n ≥ 1` (proved in `riffleLeastK_eq_ceil`). -/
def riffleLeastK (n : Nat) : Nat :=
  Nat.find (p := fun k => n ^ 3 ≤ 4 ^ k)
    ⟨n ^ 3, le_trans (Nat.le_of_lt (Nat.lt_two_pow (n ^ 3)))
      (Nat.pow_le_pow_left (by norm_num) (n ^ 3))⟩

/-- `riffle`, reduced to the number of `random.shuffle` passes it performs:
the source computes `ceil((3/2) * log2(n) + U)` with `U = randrange(0, n)`;
since `U` is an integer this is `U + ⌈(3/2)·log2 n⌉ = U + riffleLeastK n`
(`riffleLeastK_eq_ceil`).  For `n = 0` both `math.log2(0)` and
`random.randrange(0, 0)` raise `ValueError`, modelled by `none`. -/
def riffle (n u : Nat) : Option Nat :=
  if n = 0 then none else some (riffleLeastK n + u)

/-- `droop`: whether the winner's final count exceeds
`floor(len(ballots) / seats)`.  (The `winner` *parameter* of the Python
method is ignored by its body, which reads `self.winner`.) -/
def droop (e : Election) (seats : Nat) : Bool :=
  decide (e.ballots.length / seats < (dget e.candidates (e.winner.getD 0)).length)

/-- The four integers printed by `__repr__`, in order: number of
candidates, number of ballots, remaining candidates, and the value printed
after "Exhausted ballots:".  Python integer subtraction is modelled on
`Int`. -/
def reprStats (e : Election) : Int × Int × Int × Int :=
  let num_candidates : Int := e.number_of_candidates
  let num_ballots : Int := e.ballots.length
  let active_candidates : Int := num_candidates - e.eliminated.length
  let active_ballots : Int := num_ballots - (e.candidates.map (fun p => p.2.length)).sum
  (num_candidates, num_ballots, active_candidates, num_ballots - active_ballots)

/-! ## Claim-side derived quantities -/

/-- The total number of ballots currently assigned to active candidates. -/
def assignedTotal (e : Election) : Nat := (e.candidates.map (fun p => p.2.length)).sum

/-- The number of exhausted ballots: ballots of the election whose every
ranked candidate has been eliminated (spec glossary: "a ballot with no
remaining non-eliminated preference"). -/
def exhaustedCount (e : Election) : Nat :=
  (e.ballots.filter (fun b => decide (firstNonElim e.eliminated b.ranking = none))).length

/-- Well-formed input: every ballot ranks at least one candidate and only
registered ones (the validation the spec assigns to an upstream
collaborator; without it the Python code raises `KeyError`/`IndexError`). -/
def WFballots (reg : List Cand) (bs : List Ballot) : Prop :=
  ∀ b ∈ bs, b.ranking ≠ [] ∧ ∀ c ∈ b.ranking, c ∈ reg

/-- The invariant of the elimination loop, for an election built from the
registered candidate list `reg` (with distinct names) and ballot list
`bs`.  It holds after `assign_ballots` and is preserved by every round:
the active keys are exactly the non-eliminated registered candidates (in
registration order), eliminated candidates are distinct registered ones,
and each active candidate holds — up to order — exactly the ballots whose
first non-eliminated preference it is.  The Sankey fields carry a value
exactly on layer-1 nodes. -/
structure ElectionInv (reg : List Cand) (bs : List Ballot) (e : Election) : Prop where
  hballots : e.ballots = bs
  hn : e.number_of_candidates = reg.length
  hkeys : dkeys e.candidates = reg.filter (fun c => decide (c ∉ e.eliminated))
  helim_sub : ∀ c ∈ e.eliminated, c ∈ reg
  helim_nd : e.eliminated.Nodup
  hlen : reg.length = e.eliminated.length + (dkeys e.candidates).length
  hperm : ∀ c, c ∉ e.eliminated → c ∈ reg →
    (dget e.candidates c).Perm
      (bs.filter (fun b => decide (firstNonElim e.eliminated b.ranking = some c)))
  hnodes : ∀ nd ∈ e.sankey_nodes, nd.value.isSome ↔ nd.layer = 1
  hlayer : 1 ≤ e.sankey_layer

/-! ## Concrete elections used to instantiate the theorems -/

/-- A fixed random oracle: every draw is 0. -/
def chi0 : Nat → Nat := fun _ => 0

/-- Three ballots `[0]`, `[0]`, `[1]` (weight 1 each): candidate 2 gets no
first choices, and the `[1]` ballot exhausts when 1 is eliminated. -/
def wBallots : List Ballot := [⟨1, [0]⟩, ⟨1, [0]⟩, ⟨1, [1]⟩]

/-- The same rankings as `wBallots` with different weights. -/
def wHeavy : List Ballot := [⟨7, [0]⟩, ⟨2, [0]⟩, ⟨5, [1]⟩]

def wCands : List Cand := [0, 1, 2]

def wStart : Election := Election.start wBallots wCands

def wStartHeavy : Election := Election.start wHeavy wCands

/-- The state of the `wStart` run after one elimination round (candidate 2,
holding no ballots, has been eliminated). -/
def wRound1 : Election := runRounds chi0 1 (postAssign wStart)

/-- Scenario 1 of the spec: `A=0` with 3 first choices, `B=1` and `C=2`
with 2 each — a genuine last-place tie. -/
def tieBallots : List Ballot :=
  [⟨1, [0, 1, 2]⟩, ⟨1, [0, 1, 2]⟩, ⟨1, [0, 1, 2]⟩, ⟨1, [1, 2, 0]⟩, ⟨1, [1, 2, 0]⟩,
    ⟨1, [2, 0, 1]⟩, ⟨1, [2, 0, 1]⟩]

def tieElection : Election := postAssign (Election.start tieBallots wCands)

/-- The final state of the `wStart` run (the run succeeds; see
`C7_nodes_values_witness`). -/
def wFinal : Election :=
  ((single_winner_rcv wStart chi0).toOption).getD (Election.start [] [])

/-- The final state of the `wStartHeavy` run. -/
def wFinalHeavy : Election :=
  ((single_winner_rcv wStartHeavy chi0).toOption).getD (Election.start [] [])

/-! ## Weight erasure (for the weight-independence hyperproperty C10) -/

/-- Erase a ballot's weight (set it to 0), keeping the ranking.  Two
elections "differ only in their ballots' weight fields" exactly when their
`stripE` images coincide. -/
def stripB (b : Ballot) : Ballot := ⟨0, b.ranking⟩

/-- Erase the weights of all ballots stored in a candidates dictionary. -/
def stripD (d : List (Cand × List Ballot)) : List (Cand × List Ballot) :=
  d.map (fun p => (p.1, p.2.map stripB))

/-- Erase all ballot weights in an election state. -/
def stripE (e : Election) : Election :=
  { e with ballots := e.ballots.map stripB, candidates := stripD e.candidates }

/-! ## Dictionary lemmas -/

theorem dkeys_nil {α : Type} : dkeys ([] : List (Cand × α)) = [] := rfl

theorem dkeys_cons {α : Type} (p : Cand × α) (d : List (Cand × α)) :
    dkeys (p :: d) = p.1 :: dkeys d := rfl

theorem alookup_of_not_mem {α : Type} {d : List (Cand × α)} {c : Cand} (dflt : α)
    (h : c ∉ dkeys d) : alookup d c dflt = dflt := by
  induction d with
  | nil => rfl
  | cons p rest ih =>
    rw [dkeys_cons, List.mem_cons] at h
    push_neg at h
    simp [alookup, Ne.symm h.1, ih h.2]

theorem alookup_alUpdate_self {α : Type} (d : List (Cand × α)) (c : Cand) (f : α → α)
    (init : α) (dflt : α) :
    alookup (alUpdate d c f init) c dflt =
      if c ∈ dkeys d then f (alookup d c dflt) else init := by
  induction d with
  | nil => simp [alUpdate, alookup, dkeys_nil]
  | cons p rest ih =>
    by_cases h : p.1 = c
    · simp [alUpdate, alookup, h, dkeys_cons]
    · have hcp : ¬ c = p.1 := fun hc => h hc.symm
      rw [show alUpdate (p :: rest) c f init = p :: alUpdate rest c f init from by
        simp [alUpdate, h]]
      rw [show alookup (p :: alUpdate rest c f init) c dflt =
        alookup (alUpdate rest c f init) c dflt from by simp [alookup, h]]
      rw [ih, dkeys_cons]
      by_cases hm : c ∈ dkeys rest
      · simp [List.mem_cons, hcp, hm, alookup, h]
      · simp [List.mem_cons, hcp, hm]

theorem alookup_alUpdate_ne {α : Type} (d : List (Cand × α)) {c c' : Cand} (f : α → α)
    (init : α) (dflt : α) (h : c' ≠ c) :
    alookup (alUpdate d c f init) c' dflt = alookup d c' dflt := by
  induction d with
  | nil => simp [alUpdate, alookup, Ne.symm h]
  | cons p rest ih =>
    by_cases hp : p.1 = c
    · subst hp
      have hne : ¬ p.1 = c' := fun hc => h hc.symm
      simp [alUpdate, alookup, hne]
    · by_cases hp' : p.1 = c'
      · simp [alUpdate, alookup, hp, hp', h]
      · simp [alUpdate, alookup, hp, hp', ih]

theorem dkeys_alUpdate {α : Type} (d : List (Cand × α)) (c : Cand) (f : α → α) (init : α) :
    dkeys (alUpdate d c f init) = if c ∈ dkeys d then dkeys d else dkeys d ++ [c] := by
  induction d with
  | nil => simp [alUpdate, dkeys_nil, dkeys_cons]
  | cons p rest ih =>
    by_cases h : p.1 = c
    · simp [alUpdate, dkeys_cons, h]
    · have hcp : ¬ c = p.1 := fun hc => h hc.symm
      rw [show alUpdate (p :: rest) c f init = p :: alUpdate rest c f init from by
        simp [alUpdate, h]]
      rw [dkeys_cons, ih, dkeys_cons]
      by_cases hm : c ∈ dkeys rest
      · simp [List.mem_cons, hcp, hm]
      · simp [List.mem_cons, hcp, hm]

theorem dkeys_alUpdate_of_mem {α : Type} {d : List (Cand × α)} {c : Cand} (f : α → α)
    (init : α) (h : c ∈ dkeys d) : dkeys (alUpdate d c f init) = dkeys d := by
  rw [dkeys_alUpdate, if_pos h]

theorem mem_dkeys_alUpdate {α : Type} {d : List (Cand × α)} {c c' : Cand} (f : α → α)
    (init : α) (h : c' ∈ dkeys d) : c' ∈ dkeys (alUpdate d c f init) := by
  rw [dkeys_alUpdate]
  by_cases hm : c ∈ dkeys d <;> simp [hm, h]

theorem alookup_ddel_self {α : Type} (d : List (Cand × α)) (c : Cand) (dflt : α) :
    alookup (ddel d c) c dflt = dflt := by
  induction d with
  | nil => rfl
  | cons p rest ih =>
    by_cases h : p.1 = c
    · simp [ddel, h, ih]
    · simp [ddel, h, alookup, ih]

theorem alookup_ddel_ne {α : Type} (d : List (Cand × α)) {c c' : Cand} (dflt : α)
    (h : c' ≠ c) : alookup (ddel d c) c' dflt = alookup d c' dflt := by
  induction d with
  | nil => rfl
  | cons p rest ih =>
    by_cases hp : p.1 = c
    · subst hp
      have hne : ¬ p.1 = c' := fun hc => h hc.symm
      simp [ddel, ih, alookup, hne]
    · simp [ddel, hp, alookup, ih]

theorem dget_ddel_self (d : List (Cand × List Ballot)) (c : Cand) :
    dget (ddel d c) c = [] :=
  alookup_ddel_self d c []

theorem dget_ddel_ne (d : List (Cand × List Ballot)) {c c' : Cand} (h : c' ≠ c) :
    dget (ddel d c) c' = dget d c' :=
  alookup_ddel_ne d [] h

theorem dkeys_ddel {α : Type} (d : List (Cand × α)) (c : Cand) :
    dkeys (ddel d c) = (dkeys d).filter (fun k => decide (k ≠ c)) := by
  induction d with
  | nil => rfl
  | cons p rest ih =>
    by_cases h : p.1 = c
    · rw [show ddel (p :: rest) c = ddel rest c from by simp [ddel, h], ih, dkeys_cons,
        List.filter_cons]
      simp [h]
    · rw [show ddel (p :: rest) c = p :: ddel rest c from by simp [ddel, h], dkeys_cons,
        dkeys_cons, ih, List.filter_cons]
      simp [h]

/-! ## `firstNonElim` lemmas -/

theorem firstNonElim_eq_some {elim : List Cand} {r : List Cand} {c : Cand}
    (h : firstNonElim elim r = some c) : c ∈ r ∧ c ∉ elim := by
  induction r with
  | nil => simp [firstNonElim] at h
  | cons x rest ih =>
    by_cases hx : x ∈ elim
    · simp only [firstNonElim, if_pos hx] at h
      exact ⟨List.mem_cons_of_mem _ (ih h).1, (ih h).2⟩
    · simp only [firstNonElim, if_neg hx, Option.some.injEq] at h
      exact ⟨h ▸ List.mem_cons_self x rest, h ▸ hx⟩

theorem firstNonElim_eq_none_iff {elim : List Cand} {r : List Cand} :
    firstNonElim elim r = none ↔ ∀ c ∈ r, c ∈ elim := by
  induction r with
  | nil => simp [firstNonElim]
  | cons x rest ih =>
    by_cases hx : x ∈ elim
    · simp [firstNonElim, hx, ih]
    · simp [firstNonElim, hx]

theorem firstNonElim_cons_of_ne {elim : List Cand} {r : List Cand} {c x : Cand}
    (h : firstNonElim elim r = some c) (hne : c ≠ x) :
    firstNonElim (x :: elim) r = some c := by
  induction r with
  | nil => simp [firstNonElim] at h
  | cons a rest ih =>
    by_cases ha : a ∈ elim
    · simp only [firstNonElim, if_pos ha] at h
      simp [firstNonElim, List.mem_cons, ha, ih h]
    · simp only [firstNonElim, if_neg ha, Option.some.injEq] at h
      subst h
      simp [firstNonElim, List.mem_cons, ha, hne]

theorem firstNonElim_cons_cases {elim : List Cand} {r : List Cand} {c x : Cand}
    (h : firstNonElim (x :: elim) r = some c) :
    firstNonElim elim r = some c ∨ firstNonElim elim r = some x := by
  induction r with
  | nil => simp [firstNonElim] at h
  | cons a rest ih =>
    by_cases ha : a ∈ elim
    · rw [show firstNonElim (x :: elim) (a :: rest) = firstNonElim (x :: elim) rest from by
        simp [firstNonElim, List.mem_cons, ha]] at h
      rw [show firstNonElim elim (a :: rest) = firstNonElim elim rest from by
        simp [firstNonElim, ha]]
      exact ih h
    · by_cases hax : a = x
      · subst hax
        right
        simp [firstNonElim, ha]
      · have hmem : a ∉ x :: elim := by simp [List.mem_cons, hax, ha]
        rw [show firstNonElim (x :: elim) (a :: rest) = some a from by
          simp [firstNonElim, hmem]] at h
        rw [show firstNonElim elim (a :: rest) = some a from by simp [firstNonElim, ha]]
        exact Or.inl h

theorem firstNonElim_cons_none {elim : List Cand} {r : List Cand} {x : Cand}
    (h : firstNonElim elim r = none) : firstNonElim (x :: elim) r = none := by
  rw [firstNonElim_eq_none_iff] at h ⊢
  exact fun c hc => List.mem_cons_of_mem _ (h c hc)

/-! ## Transfer and assignment loop lemmas -/

theorem transferBallots_fst_lookup (elim : List Cand) (bs : List Ballot) :
    ∀ (cands : List (Cand × List Ballot)) (acc : List (Cand × Nat)) (c : Cand),
      dget (transferBallots elim (cands, acc) bs).1 c =
        dget cands c ++ bs.filter (fun b => decide (firstNonElim elim b.ranking = some c)) := by
  induction bs with
  | nil => intro cands acc c; simp [transferBallots]
  | cons b rest ih =>
    intro cands acc c
    rcases hb : firstNonElim elim b.ranking with _ | c0
    · simp only [transferBallots, hb, List.filter_cons]
      rw [ih]
      simp [hb]
    · simp only [transferBallots, hb, List.filter_cons]
      by_cases hc : c0 = c
      · subst hc
        rw [ih]
        have : dget (alUpdate cands c0 (fun l => l ++ [b]) [b]) c0 = dget cands c0 ++ [b] := by
          unfold dget
          rw [alookup_alUpdate_self]
          by_cases hm : c0 ∈ dkeys cands
          · simp [hm]
          · simp [hm, alookup_of_not_mem _ hm, dget]
        rw [this]
        simp [hb]
      · rw [ih]
        have : dget (alUpdate cands c0 (fun l => l ++ [b]) [b]) c = dget cands c :=
          alookup_alUpdate_ne _ _ _ _ (Ne.symm hc)
        rw [this]
        simp [hb, hc]

theorem transferBallots_keys (elim : List Cand) (bs : List Ballot) :
    ∀ (cands : List (Cand × List Ballot)) (acc : List (Cand × Nat)),
      (∀ b ∈ bs, ∀ c, firstNonElim elim b.ranking = some c → c ∈ dkeys cands) →
      dkeys (transferBallots elim (cands, acc) bs).1 = dkeys cands := by
  induction bs with
  | nil => intro cands acc _; rfl
  | cons b rest ih =>
    intro cands acc h
    rcases hb : firstNonElim elim b.ranking with _ | c0
    · simpa only [transferBallots, hb] using
        ih cands acc (fun b' hb' => h b' (List.mem_cons_of_mem _ hb'))
    · have hc0 : c0 ∈ dkeys cands := h b (List.mem_cons_self _ _) c0 hb
      have hkeys := dkeys_alUpdate_of_mem (d := cands) (fun l => l ++ [b]) [b] hc0
      simp only [transferBallots, hb]
      rw [ih _ _ (fun b' hb' c hc => by
        rw [hkeys]; exact h b' (List.mem_cons_of_mem _ hb') c hc), hkeys]

theorem transferBallots_keys_mono (elim : List Cand) (bs : List Ballot) :
    ∀ (cands : List (Cand × List Ballot)) (acc : List (Cand × Nat)) (c : Cand),
      c ∈ dkeys cands → c ∈ dkeys (transferBallots elim (cands, acc) bs).1 := by
  induction bs with
  | nil => intro cands acc c hc; exact hc
  | cons b rest ih =>
    intro cands acc c hc
    rcases hb : firstNonElim elim b.ranking with _ | c0
    · simpa only [transferBallots, hb] using ih cands acc c hc
    · simp only [transferBallots, hb]
      exact ih _ _ c (mem_dkeys_alUpdate _ _ hc)

theorem assignLoop_lookup (bs : List Ballot) :
    ∀ (d : List (Cand × List Ballot)) (c : Cand),
      dget (assignLoop d bs) c =
        dget d c ++ bs.filter (fun b => decide (b.ranking.headD 0 = c)) := by
  induction bs with
  | nil => intro d c; simp [assignLoop]
  | cons b rest ih =>
    intro d c
    rw [show assignLoop d (b :: rest) =
      assignLoop (alUpdate d (b.ranking.headD 0) (fun l => l ++ [b]) [b]) rest from rfl, ih]
    by_cases hc : b.ranking.headD 0 = c
    · have hup : dget (alUpdate d (b.ranking.headD 0) (fun l => l ++ [b]) [b]) c =
          dget d c ++ [b] := by
        unfold dget
        rw [hc, alookup_alUpdate_self]
        by_cases hm : c ∈ dkeys d
        · simp [hm]
        · simp [hm, alookup_of_not_mem _ hm]
      rw [hup, List.filter_cons, if_pos (by simpa using hc)]
      simp
    · have hup : dget (alUpdate d (b.ranking.headD 0) (fun l => l ++ [b]) [b]) c = dget d c :=
        alookup_alUpdate_ne _ _ _ _ (Ne.symm hc)
      rw [hup, List.filter_cons, if_neg (by simpa using hc)]

theorem assignLoop_keys (bs : List Ballot) :
    ∀ (d : List (Cand × List Ballot)),
      (∀ b ∈ bs, b.ranking.headD 0 ∈ dkeys d) →
      dkeys (assignLoop d bs) = dkeys d := by
  induction bs with
  | nil => intro d _; rfl
  | cons b rest ih =>
    intro d h
    have hb : b.ranking.headD 0 ∈ dkeys d := h b (List.mem_cons_self _ _)
    have hkeys := dkeys_alUpdate_of_mem (d := d) (fun l => l ++ [b]) [b] hb
    simp only [assignLoop]
    rw [ih _ (fun b' hb' => by rw [hkeys]; exact h b' (List.mem_cons_of_mem _ hb')), hkeys]

/-! ## Loop unfolding lemmas -/

theorem runRounds_of_not_lt {χ : Nat → Nat} {e : Election}
    (h : ¬ e.eliminated.length < e.number_of_candidates - 1) :
    ∀ fuel, runRounds χ fuel e = e := by
  intro fuel
  cases fuel with
  | zero => rfl
  | succ f => simp [runRounds, h]

theorem runRounds_succ (χ : Nat → Nat) (k : Nat) (e : Election) :
    runRounds χ (k + 1) e =
      if (runRounds χ k e).eliminated.length < (runRounds χ k e).number_of_candidates - 1 then
        roundStep (runRounds χ k e) (χ (runRounds χ k e).eliminated.length)
      else runRounds χ k e := by
  induction k generalizing e with
  | zero => simp [runRounds]
  | succ k ih =>
    by_cases h : e.eliminated.length < e.number_of_candidates - 1
    · show (if _ then _ else _) = _
      rw [if_pos h]
      rw [ih (roundStep e (χ e.eliminated.length))]
      have : runRounds χ (k + 1) e = runRounds χ k (roundStep e (χ e.eliminated.length)) := by
        simp [runRounds, h]
      rw [this]
    · rw [runRounds_of_not_lt h, runRounds_of_not_lt h, if_neg h]

/-! ## Small list helpers -/

theorem headD_mem {l : List Cand} (h : l ≠ []) (d : Cand) : l.headD d ∈ l := by
  cases l with
  | nil => exact absurd rfl h
  | cons a t => simp [List.headD]

theorem getD_mod_mem {l : List Cand} (h : l ≠ []) (r : Nat) (d : Cand) :
    l.getD (r % l.length) d ∈ l := by
  have hlen : 0 < l.length := List.length_pos.mpr h
  have hlt : r % l.length < l.length := Nat.mod_lt _ hlen
  rw [List.getD_eq_getElem l d hlt]
  exact List.getElem_mem hlt

theorem headD_append {l l2 : List Cand} (h : l ≠ []) (d : Cand) :
    (l ++ l2).headD d = l.headD d := by
  cases l with
  | nil => exact absurd rfl h
  | cons a t => simp [List.headD]

/-- In a list sorted by the (total, reflexive, transitive) relation `r`,
the head of the reversed list is `r`-below every element. -/
theorem sorted_rel_reverse_headD {r : Cand → Cand → Prop} (hrefl : ∀ a, r a a) :
    ∀ (L : List Cand), List.Sorted r L → ∀ c ∈ L, r c (L.reverse.headD 0) := by
  intro L
  induction L with
  | nil => intro _ c hc; simp at hc
  | cons a t ih =>
    intro hs c hc
    rw [List.sorted_cons] at hs
    cases t with
    | nil =>
      simp at hc
      subst hc
      simp [hrefl]
    | cons b t' =>
      have htne : (b :: t').reverse ≠ [] := by simp
      rw [List.reverse_cons, headD_append htne]
      have hmem : (b :: t').reverse.headD 0 ∈ b :: t' := by
        rw [← List.mem_reverse]
        exact headD_mem htne 0
      rcases List.mem_cons.mp hc with hca | hct
      · subst hca
        exact hs.1 _ hmem
      · exact ih hs.2 c hct

theorem length_filter_ne {l : List Cand} {a : Cand} (hnd : l.Nodup) (ha : a ∈ l) :
    (l.filter (fun k => decide (k ≠ a))).length + 1 = l.length := by
  induction l with
  | nil => simp at ha
  | cons b t ih =>
    rw [List.nodup_cons] at hnd
    by_cases hb : b = a
    · subst hb
      have hself : t.filter (fun k => decide (k ≠ b)) = t :=
        List.filter_eq_self.mpr (fun x hx => by
          simp only [decide_eq_true_eq]
          exact fun he => hnd.1 (he ▸ hx))
      rw [List.filter_cons, if_neg (by simp), hself, List.length_cons]
    · have hat : a ∈ t := by
        rcases List.mem_cons.mp ha with h | h
        · exact absurd h.symm hb
        · exact h
      rw [List.filter_cons, if_pos (by simp [hb])]
      simp only [List.length_cons]
      rw [← ih hnd.2 hat]

theorem filter_not_mem_cons (reg elim : List Cand) (lp : Cand) :
    (reg.filter (fun c => decide (c ∉ elim))).filter (fun k => decide (k ≠ lp)) =
      reg.filter (fun c => decide (c ∉ lp :: elim)) := by
  rw [List.filter_filter]
  apply List.filter_congr
  intro c _
  by_cases h1 : c = lp <;> by_cases h2 : c ∈ elim <;> simp [h1, h2]

/-! ## Resolution of the tie: membership and minimality -/

theorem sort_candidates_perm (e : Election) :
    (sort_candidates e).Perm (dkeys e.candidates) :=
  List.perm_insertionSort _ _

theorem tiedCandidates_ne_nil {e : Election} (hne : e.candidates ≠ []) :
    tiedCandidates e ≠ [] := by
  have hkeysne : dkeys e.candidates ≠ [] := by
    cases hc : e.candidates with
    | nil => exact absurd hc hne
    | cons p rest => simp [dkeys]
  have hrevne : (sort_candidates e).reverse ≠ [] := by
    intro h
    apply hkeysne
    have := (sort_candidates_perm e).length_eq
    rw [List.reverse_eq_nil_iff] at h
    rw [h] at this
    exact List.length_eq_zero.mp this.symm
  have hhead : (sort_candidates e).reverse.headD 0 ∈ tiedCandidates e := by
    apply List.mem_filter.mpr
    exact ⟨headD_mem hrevne 0, by simp [tallyMin]⟩
  exact List.ne_nil_of_mem hhead

theorem resolve_tie_random_mem_tied {e : Election} (hne : e.candidates ≠ []) (r : Nat) :
    resolve_tie_random e r ∈ tiedCandidates e :=
  getD_mod_mem (tiedCandidates_ne_nil hne) r 0

theorem tiedCandidates_subset_keys {e : Election} :
    ∀ c ∈ tiedCandidates e, c ∈ dkeys e.candidates := by
  intro c hc
  have h1 : c ∈ (sort_candidates e).reverse := List.mem_of_mem_filter hc
  rw [List.mem_reverse] at h1
  exact (sort_candidates_perm e).mem_iff.mp h1

theorem resolve_tie_random_mem_keys {e : Election} (hne : e.candidates ≠ []) (r : Nat) :
    resolve_tie_random e r ∈ dkeys e.candidates :=
  tiedCandidates_subset_keys _ (resolve_tie_random_mem_tied hne r)

/-- `tallyMin` is a lower bound on the ballot counts of all candidates: the
reversed sorted ranking starts at a minimum-count candidate. -/
theorem tallyMin_le (e : Election) :
    ∀ c ∈ dkeys e.candidates, tallyMin e ≤ countOf e c := by
  intro c hc
  haveI : IsTotal Cand (fun a b => countOf e b ≤ countOf e a) :=
    ⟨fun a b => le_total (countOf e b) (countOf e a)⟩
  haveI : IsTrans Cand (fun a b => countOf e b ≤ countOf e a) :=
    ⟨fun _ _ _ hab hbc => le_trans hbc hab⟩
  have hs : List.Sorted (fun a b => countOf e b ≤ countOf e a) (sort_candidates e) :=
    List.sorted_insertionSort _ _
  have hcs : c ∈ sort_candidates e := (sort_candidates_perm e).mem_iff.mpr hc
  exact sorted_rel_reverse_headD (r := fun a b => countOf e b ≤ countOf e a)
    (fun a => le_refl _) _ hs c hcs

/-! ## The ballot-filter splitting permutation -/

/-- Splitting the ballots whose first non-eliminated choice is `c` after
additionally eliminating `lp`: they are, up to order, those that already
pointed at `c`, together with those that pointed at `lp` and fall through
to `c`. -/
theorem filter_firstNonElim_cons_perm (elim : List Cand) (lp c : Cand) (hc : c ≠ lp) :
    ∀ bs : List Ballot,
      (bs.filter (fun b => decide (firstNonElim (lp :: elim) b.ranking = some c))).Perm
        (bs.filter (fun b => decide (firstNonElim elim b.ranking = some c)) ++
          (bs.filter (fun b => decide (firstNonElim elim b.ranking = some lp))).filter
            (fun b => decide (firstNonElim (lp :: elim) b.ranking = some c))) := by
  intro bs
  induction bs with
  | nil => simp
  | cons b rest ih =>
    rcases hx : firstNonElim elim b.ranking with _ | d
    · have hy := firstNonElim_cons_none (x := lp) hx
      simpa [List.filter_cons, hx, hy] using ih
    · by_cases hdc : d = c
      · subst hdc
        have hy : firstNonElim (lp :: elim) b.ranking = some d :=
          firstNonElim_cons_of_ne hx hc
        simpa [List.filter_cons, hx, hy, hc, Ne.symm hc] using ih.cons b
      · by_cases hdl : d = lp
        · subst hdl
          by_cases hy : firstNonElim (d :: elim) b.ranking = some c
          · simpa [List.filter_cons, hx, hy, hdc, Ne.symm hdc] using
              (ih.cons b).trans List.perm_middle.symm
          · simpa [List.filter_cons, hx, hy, hdc, Ne.symm hdc] using ih
        · have hy : firstNonElim (lp :: elim) b.ranking = some d :=
            firstNonElim_cons_of_ne hx hdl
          simpa [List.filter_cons, hx, hy, hdc, hdl] using ih

/-! ## Round-step branch characterisations -/

theorem roundStep_eq_skip (e : Election) (r : Nat)
    (h0 : (dget e.candidates (resolve_tie_random e r)).length = 0) :
    roundStep e r =
      { e with eliminated := resolve_tie_random e r :: e.eliminated,
               candidates := ddel e.candidates (resolve_tie_random e r) } := by
  simp only [roundStep]
  rw [if_pos h0]

theorem roundStep_eq_transfer (e : Election) (r : Nat)
    (h0 : ¬ (dget e.candidates (resolve_tie_random e r)).length = 0) :
    roundStep e r = roundStepTransfer e (resolve_tie_random e r) := by
  simp only [roundStep]
  rw [if_neg h0]

theorem roundStepTransfer_eliminated (e : Election) (lp : Cand) :
    (roundStepTransfer e lp).eliminated = lp :: e.eliminated := rfl

theorem roundStepTransfer_candidates (e : Election) (lp : Cand) :
    (roundStepTransfer e lp).candidates =
      ddel (transferBallots (lp :: e.eliminated) (e.candidates, [])
        (dget e.candidates lp)).1 lp := rfl

theorem roundStepTransfer_nodes (e : Election) (lp : Cand) :
    (roundStepTransfer e lp).sankey_nodes =
      e.sankey_nodes ++
        ((dkeys (roundStepTransfer e lp).candidates).filter
          (fun c => c ∉ lp :: e.eliminated)).map
          (fun c => SankeyNode.mk c (e.sankey_layer + 1) none) := rfl

/-! ## Invariant preservation -/

theorem skip_inv {reg : List Cand} {bs : List Ballot} {e : Election}
    (hreg : reg.Nodup) (hinv : ElectionInv reg bs e) (lp : Cand)
    (hmem : lp ∈ dkeys e.candidates) (hlp_reg : lp ∈ reg) (hlp_nelim : lp ∉ e.eliminated)
    (h0 : dget e.candidates lp = []) :
    ElectionInv reg bs
      { e with eliminated := lp :: e.eliminated, candidates := ddel e.candidates lp } := by
  have hkeysnd : (dkeys e.candidates).Nodup := by
    rw [hinv.hkeys]; exact hreg.filter _
  refine ⟨hinv.hballots, hinv.hn, ?_, ?_, ?_, ?_, ?_, hinv.hnodes, hinv.hlayer⟩
  · show dkeys (ddel e.candidates lp) = _
    rw [dkeys_ddel, hinv.hkeys, filter_not_mem_cons]
  · intro c hc
    rcases List.mem_cons.mp hc with h | h
    · exact h ▸ hlp_reg
    · exact hinv.helim_sub c h
  · exact List.nodup_cons.mpr ⟨hlp_nelim, hinv.helim_nd⟩
  · show reg.length = (lp :: e.eliminated).length + (dkeys (ddel e.candidates lp)).length
    rw [dkeys_ddel]
    have hklen := length_filter_ne hkeysnd hmem
    have hl := hinv.hlen
    simp only [List.length_cons]
    omega
  · intro c hc hcreg
    have hcne : c ≠ lp := fun h => hc (h ▸ List.mem_cons_self _ _)
    have hcnelim : c ∉ e.eliminated := fun h => hc (List.mem_cons_of_mem _ h)
    show (dget (ddel e.candidates lp) c).Perm _
    unfold dget
    rw [alookup_ddel_ne _ _ hcne]
    have h1 := hinv.hperm c hcnelim hcreg
    have hlpperm := hinv.hperm lp hlp_nelim hlp_reg
    rw [h0] at hlpperm
    have hfnil : bs.filter (fun b => decide (firstNonElim e.eliminated b.ranking = some lp))
        = [] := hlpperm.symm.eq_nil
    have hsplit := filter_firstNonElim_cons_perm e.eliminated lp c hcne bs
    rw [hfnil] at hsplit
    simp only [List.filter_nil, List.append_nil] at hsplit
    exact h1.trans hsplit.symm

theorem transfer_inv {reg : List Cand} {bs : List Ballot} {e : Election}
    (hreg : reg.Nodup) (hwf : WFballots reg bs) (hinv : ElectionInv reg bs e) (lp : Cand)
    (hmem : lp ∈ dkeys e.candidates) (hlp_reg : lp ∈ reg) (hlp_nelim : lp ∉ e.eliminated) :
    ElectionInv reg bs (roundStepTransfer e lp) := by
  have hkeysnd : (dkeys e.candidates).Nodup := by
    rw [hinv.hkeys]; exact hreg.filter _
  have htargets : ∀ b ∈ dget e.candidates lp, ∀ c,
      firstNonElim (lp :: e.eliminated) b.ranking = some c → c ∈ dkeys e.candidates := by
    intro b hb c hc
    have hbbs : b ∈ bs :=
      List.mem_of_mem_filter ((hinv.hperm lp hlp_nelim hlp_reg).mem_iff.mp hb)
    obtain ⟨hcr, hcnel⟩ := firstNonElim_eq_some hc
    have hcreg : c ∈ reg := (hwf b hbbs).2 c hcr
    rw [hinv.hkeys]
    apply List.mem_filter.mpr
    refine ⟨hcreg, ?_⟩
    simp only [decide_eq_true_eq]
    exact fun hcmem => hcnel (List.mem_cons_of_mem _ hcmem)
  have hkeystb : dkeys (transferBallots (lp :: e.eliminated) (e.candidates, [])
      (dget e.candidates lp)).1 = dkeys e.candidates :=
    transferBallots_keys _ _ _ _ htargets
  have hkeys2 : dkeys (roundStepTransfer e lp).candidates =
      reg.filter (fun c => decide (c ∉ lp :: e.eliminated)) := by
    rw [roundStepTransfer_candidates, dkeys_ddel, hkeystb, hinv.hkeys, filter_not_mem_cons]
  refine ⟨hinv.hballots, hinv.hn, hkeys2, ?_, ?_, ?_, ?_, ?_, ?_⟩
  · intro c hc
    rcases List.mem_cons.mp hc with h | h
    · exact h ▸ hlp_reg
    · exact hinv.helim_sub c h
  · exact List.nodup_cons.mpr ⟨hlp_nelim, hinv.helim_nd⟩
  · show reg.length =
      (lp :: e.eliminated).length + (dkeys (roundStepTransfer e lp).candidates).length
    rw [roundStepTransfer_candidates, dkeys_ddel, hkeystb]
    have hklen := length_filter_ne hkeysnd hmem
    have hl := hinv.hlen
    simp only [List.length_cons]
    omega
  · intro c hc hcreg
    have hcne : c ≠ lp := fun h => hc (h ▸ List.mem_cons_self _ _)
    have hcnelim : c ∉ e.eliminated := fun h => hc (List.mem_cons_of_mem _ h)
    show (dget (roundStepTransfer e lp).candidates c).Perm _
    rw [roundStepTransfer_candidates]
    unfold dget
    rw [alookup_ddel_ne _ _ hcne]
    show (dget _ c).Perm _
    rw [transferBallots_fst_lookup]
    have h1 := hinv.hperm c hcnelim hcreg
    have hB := hinv.hperm lp hlp_nelim hlp_reg
    have hBf := hB.filter
      (fun b => decide (firstNonElim (lp :: e.eliminated) b.ranking = some c))
    have hsplit := filter_firstNonElim_cons_perm e.eliminated lp c hcne bs
    exact (h1.append hBf).trans hsplit.symm
  · intro nd hnd
    rw [roundStepTransfer_nodes] at hnd
    rcases List.mem_append.mp hnd with h | h
    · exact hinv.hnodes nd h
    · obtain ⟨c, _, hcnd⟩ := List.mem_map.mp h
      subst hcnd
      have := hinv.hlayer
      simp only [Option.isSome_none, Bool.false_eq_true, false_iff]
      omega
  · show 1 ≤ e.sankey_layer + 1
    omega

/-- One guarded round from an invariant state: the chosen candidate is an
active, not-yet-eliminated one, the eliminated set grows by exactly that
candidate, and the invariant is preserved. -/
theorem roundStep_inv {reg : List Cand} {bs : List Ballot} {e : Election} (r : Nat)
    (hreg : reg.Nodup) (hwf : WFballots reg bs) (hinv : ElectionInv reg bs e)
    (hlt : e.eliminated.length < e.number_of_candidates - 1) :
    resolve_tie_random e r ∈ dkeys e.candidates ∧
    resolve_tie_random e r ∉ e.eliminated ∧
    (roundStep e r).eliminated = resolve_tie_random e r :: e.eliminated ∧
    ElectionInv reg bs (roundStep e r) := by
  have hkeysne : dkeys e.candidates ≠ [] := by
    intro h0
    have hl := hinv.hlen
    rw [h0] at hl
    simp only [List.length_nil] at hl
    rw [hinv.hn] at hlt
    omega
  have hcne : e.candidates ≠ [] := by
    intro h0
    apply hkeysne
    rw [h0]
    rfl
  have hmem : resolve_tie_random e r ∈ dkeys e.candidates :=
    resolve_tie_random_mem_keys hcne r
  have hlpfilter := hinv.hkeys ▸ hmem
  have hlp_reg : resolve_tie_random e r ∈ reg := (List.mem_filter.mp hlpfilter).1
  have hlp_nelim : resolve_tie_random e r ∉ e.eliminated := by
    have h2 := (List.mem_filter.mp hlpfilter).2
    simpa using h2
  by_cases h0 : (dget e.candidates (resolve_tie_random e r)).length = 0
  · rw [roundStep_eq_skip e r h0]
    exact ⟨hmem, hlp_nelim, rfl,
      skip_inv hreg hinv _ hmem hlp_reg hlp_nelim (List.length_eq_zero.mp h0)⟩
  · rw [roundStep_eq_transfer e r h0]
    exact ⟨hmem, hlp_nelim, rfl,
      transfer_inv hreg hwf hinv _ hmem hlp_reg hlp_nelim⟩

theorem runRounds_inv {reg : List Cand} {bs : List Ballot} (χ : Nat → Nat)
    (hreg : reg.Nodup) (hwf : WFballots reg bs) :
    ∀ (fuel : Nat) (e : Election), ElectionInv reg bs e →
      ElectionInv reg bs (runRounds χ fuel e) := by
  intro fuel
  induction fuel with
  | zero => intro e hinv; exact hinv
  | succ f ih =>
    intro e hinv
    by_cases h : e.eliminated.length < e.number_of_candidates - 1
    · rw [show runRounds χ (f + 1) e = runRounds χ f (roundStep e (χ e.eliminated.length))
        from by simp [runRounds, h]]
      exact ih _ ((roundStep_inv _ hreg hwf hinv h).2.2.2)
    · rw [runRounds_of_not_lt h]
      exact hinv

/-! ## The invariant holds after `assign_ballots` -/

theorem dget_start (reg : List Cand) (c : Cand) :
    dget (reg.map (fun c => (c, []))) c = [] := by
  induction reg with
  | nil => rfl
  | cons a t ih =>
    by_cases h : a = c
    · simp [dget, alookup, h]
    · simpa [dget, alookup, h] using ih

theorem dkeys_start (reg : List Cand) :
    dkeys (reg.map (fun c => (c, ([] : List Ballot)))) = reg := by
  induction reg with
  | nil => rfl
  | cons a t ih => rw [List.map_cons, dkeys_cons, ih]

theorem postAssign_inv (reg : List Cand) (bs : List Ballot) (_hreg : reg.Nodup)
    (hwf : WFballots reg bs) :
    ElectionInv reg bs (postAssign (Election.start bs reg)) := by
  have hcand0 : (postAssign (Election.start bs reg)).candidates =
      assignLoop (reg.map (fun c => (c, []))) bs := rfl
  have helim0 : (postAssign (Election.start bs reg)).eliminated = [] := rfl
  have hheads : ∀ b ∈ bs,
      b.ranking.headD 0 ∈ dkeys (reg.map (fun c => (c, ([] : List Ballot)))) := by
    intro b hb
    obtain ⟨hne, hsub⟩ := hwf b hb
    rw [dkeys_start]
    exact hsub _ (headD_mem hne 0)
  have hkeys0 : dkeys (assignLoop (reg.map (fun c => (c, []))) bs) = reg := by
    rw [assignLoop_keys bs _ hheads, dkeys_start]
  refine ⟨rfl, ?_, ?_, ?_, ?_, ?_, ?_, ?_, le_refl 1⟩
  · show (reg.map (fun c => (c, ([] : List Ballot)))).length = reg.length
    simp
  · rw [hcand0, helim0, hkeys0]
    exact (List.filter_eq_self.mpr (fun c _ => by simp)).symm
  · rw [helim0]
    intro c hc
    simp at hc
  · rw [helim0]
    exact List.nodup_nil
  · rw [helim0, hcand0, hkeys0]
    simp
  · intro c hc hcreg
    rw [helim0, hcand0, assignLoop_lookup, dget_start, List.nil_append]
    have hfilt : bs.filter (fun b => decide (b.ranking.headD 0 = c)) =
        bs.filter (fun b => decide (firstNonElim [] b.ranking = some c)) := by
      apply List.filter_congr
      intro b hb
      obtain ⟨hne, _⟩ := hwf b hb
      cases hr : b.ranking with
      | nil => exact absurd hr hne
      | cons h t => simp [firstNonElim]
    rw [hfilt]
  · intro nd hnd
    have hn2 : (postAssign (Election.start bs reg)).sankey_nodes =
        initialNodes (assignLoop (reg.map (fun c => (c, []))) bs) := rfl
    rw [hn2] at hnd
    unfold initialNodes at hnd
    obtain ⟨p, _, hp⟩ := List.mem_map.mp hnd
    rw [← hp]
    simp

/-! ## Conservation arithmetic -/

theorem sum_map_const_zero (L : List Cand) : (L.map (fun _ => (0 : Nat))).sum = 0 := by
  induction L with
  | nil => rfl
  | cons a t ih => simp [ih]

theorem sum_map_add (L : List Cand) (g h : Cand → Nat) :
    (L.map (fun c => g c + h c)).sum = (L.map g).sum + (L.map h).sum := by
  induction L with
  | nil => rfl
  | cons a t ih =>
    simp only [List.map_cons, List.sum_cons, ih]
    omega

theorem sum_map_ite_one {L : List Cand} {c0 : Cand} (hL : L.Nodup) (hc : c0 ∈ L) :
    (L.map (fun c => if c = c0 then 1 else 0)).sum = 1 := by
  induction L with
  | nil => simp at hc
  | cons a t ih =>
    rw [List.nodup_cons] at hL
    rcases List.mem_cons.mp hc with h | h
    · subst h
      have hz : t.map (fun c => if c = c0 then 1 else 0) = t.map (fun _ => (0 : Nat)) :=
        List.map_congr_left (fun x hx => by
          have hne : ¬ x = c0 := fun he => hL.1 (he ▸ hx)
          simp [hne])
      simp [hz, sum_map_const_zero]
    · have hac : ¬ a = c0 := fun he => hL.1 (he ▸ h)
      simp only [List.map_cons, List.sum_cons, if_neg hac, ih hL.2 h]

theorem ballots_partition (f : Ballot → Option Cand) {L : List Cand} (hL : L.Nodup) :
    ∀ bs : List Ballot, (∀ b ∈ bs, ∀ c, f b = some c → c ∈ L) →
      bs.length = (bs.filter (fun b => decide (f b = none))).length +
        (L.map (fun c => (bs.filter (fun b => decide (f b = some c))).length)).sum := by
  intro bs
  induction bs with
  | nil =>
    intro _
    simp [sum_map_const_zero]
  | cons b rest ih =>
    intro h
    have hrest := ih (fun b' hb' => h b' (List.mem_cons_of_mem _ hb'))
    rcases hf : f b with _ | c0
    · have hmap : L.map (fun c => ((b :: rest).filter
          (fun b' => decide (f b' = some c))).length) =
          L.map (fun c => (rest.filter (fun b' => decide (f b' = some c))).length) :=
        List.map_congr_left (fun c _ => by
          rw [List.filter_cons, if_neg (by simp [hf])])
      rw [List.length_cons, List.filter_cons, if_pos (by simp [hf]), List.length_cons, hmap]
      omega
    · have hc0L : c0 ∈ L := h b (List.mem_cons_self _ _) c0 hf
      have hmap : L.map (fun c => ((b :: rest).filter
          (fun b' => decide (f b' = some c))).length) =
          L.map (fun c => (rest.filter (fun b' => decide (f b' = some c))).length +
            if c = c0 then 1 else 0) :=
        List.map_congr_left (fun c _ => by
          by_cases hcc : c = c0
          · subst hcc
            rw [List.filter_cons, if_pos (by simp [hf])]
            simp
          · rw [List.filter_cons, if_neg (by
              simp only [hf, decide_eq_true_eq, Option.some.injEq]
              exact fun he => hcc he.symm)]
            simp [hcc])
      rw [List.length_cons, List.filter_cons, if_neg (by simp [hf]), hmap, sum_map_add,
        sum_map_ite_one hL hc0L]
      omega

theorem assignedTotal_sum_keys (d : List (Cand × List Ballot)) (h : (dkeys d).Nodup) :
    (d.map (fun p => p.2.length)).sum = ((dkeys d).map (fun c => (dget d c).length)).sum := by
  induction d with
  | nil => rfl
  | cons p rest ih =>
    rw [dkeys_cons, List.nodup_cons] at h
    have hself : dget (p :: rest) p.1 = p.2 := by simp [dget, alookup]
    have hmap : (dkeys rest).map (fun c => (dget (p :: rest) c).length) =
        (dkeys rest).map (fun c => (dget rest c).length) :=
      List.map_congr_left (fun c hc => by
        have hne : ¬ p.1 = c := fun he => h.1 (he ▸ hc)
        simp [dget, alookup, hne])
    rw [List.map_cons, List.sum_cons, dkeys_cons, List.map_cons, List.sum_cons, hself,
      hmap, ih h.2]

/-- Ballot conservation in any invariant state: assigned plus exhausted is
the total number of ballots. -/
theorem conservation_of_inv {reg : List Cand} {bs : List Ballot} {e : Election}
    (hreg : reg.Nodup) (hwf : WFballots reg bs) (hinv : ElectionInv reg bs e) :
    assignedTotal e + exhaustedCount e = bs.length := by
  have hkeysnd : (dkeys e.candidates).Nodup := by
    rw [hinv.hkeys]; exact hreg.filter _
  have h1 : assignedTotal e =
      ((dkeys e.candidates).map (fun c => (dget e.candidates c).length)).sum :=
    assignedTotal_sum_keys _ hkeysnd
  have hmap : (dkeys e.candidates).map (fun c => (dget e.candidates c).length) =
      (dkeys e.candidates).map (fun c => (bs.filter
        (fun b => decide (firstNonElim e.eliminated b.ranking = some c))).length) :=
    List.map_congr_left (fun c hc => by
      have hcf := hinv.hkeys ▸ hc
      have hcreg : c ∈ reg := (List.mem_filter.mp hcf).1
      have hcnelim : c ∉ e.eliminated := by
        have h2 := (List.mem_filter.mp hcf).2
        simpa using h2
      exact (hinv.hperm c hcnelim hcreg).length_eq)
  have hpart := ballots_partition (fun b => firstNonElim e.eliminated b.ranking) hkeysnd bs
    (fun b hb c hc => by
      obtain ⟨hcr, hcnelim⟩ := firstNonElim_eq_some hc
      have hcreg : c ∈ reg := (hwf b hb).2 c hcr
      rw [hinv.hkeys]
      exact List.mem_filter.mpr ⟨hcreg, by simpa using hcnelim⟩)
  have hex : exhaustedCount e = (bs.filter
      (fun b => decide (firstNonElim e.eliminated b.ranking = none))).length := by
    unfold exhaustedCount
    rw [hinv.hballots]
  simp only [] at hpart
  rw [h1, hmap, hex]
  omega

/-! ## Round counting and stabilisation -/

theorem run_elim_length (reg : List Cand) (bs : List Ballot) (χ : Nat → Nat)
    (hreg : reg.Nodup) (hwf : WFballots reg bs) :
    ∀ k, (runRounds χ k (postAssign (Election.start bs reg))).eliminated.length =
      min k (reg.length - 1) := by
  intro k
  induction k with
  | zero =>
    have h0 : (runRounds χ 0 (postAssign (Election.start bs reg))).eliminated.length = 0 :=
      rfl
    omega
  | succ k ih =>
    have hinvk := runRounds_inv χ hreg hwf k _ (postAssign_inv reg bs hreg hwf)
    rw [runRounds_succ]
    by_cases hg : (runRounds χ k (postAssign (Election.start bs reg))).eliminated.length <
        (runRounds χ k (postAssign (Election.start bs reg))).number_of_candidates - 1
    · rw [if_pos hg]
      have hstep := roundStep_inv
        (χ (runRounds χ k (postAssign (Election.start bs reg))).eliminated.length)
        hreg hwf hinvk hg
      rw [hstep.2.2.1, List.length_cons, ih]
      rw [hinvk.hn, ih] at hg
      omega
    · rw [if_neg hg, ih]
      rw [hinvk.hn, ih] at hg
      omega

theorem run_stable (reg : List Cand) (bs : List Ballot) (χ : Nat → Nat)
    (hreg : reg.Nodup) (hwf : WFballots reg bs) :
    ∀ m, runRounds χ ((reg.length - 1) + m) (postAssign (Election.start bs reg)) =
      runRounds χ (reg.length - 1) (postAssign (Election.start bs reg)) := by
  intro m
  induction m with
  | zero => rfl
  | succ m ih =>
    rw [show (reg.length - 1) + (m + 1) = ((reg.length - 1) + m) + 1 from rfl,
      runRounds_succ, ih]
    have hlen := run_elim_length reg bs χ hreg hwf (reg.length - 1)
    have hinvk := runRounds_inv χ hreg hwf (reg.length - 1) _ (postAssign_inv reg bs hreg hwf)
    rw [if_neg (by rw [hlen, hinvk.hn]; omega)]

/-! ## Claim C1: transfer correctness of an elimination round -/

/-- C1.  In an elimination round whose last-place candidate `lp` holds a
non-empty ballot list `B`, after the round `lp`'s list is emptied and each
ballot `b ∈ B` either (a) goes to the unique first non-eliminated
candidate `c` of its ranking — `c` survives, `b`'s multiplicity in `c`'s
list grows by exactly `b`'s multiplicity in `B` and is untouched in every
other surviving list — or (b) has every ranked candidate eliminated, is
exhausted, and is added to no list; never both and never neither (the two
cases are the two exclusive values of `firstNonElim`). -/
theorem C1_transfer_correctness (e : Election) (r : Nat) (lp : Cand)
    (hlp : resolve_tie_random e r = lp) (hB : dget e.candidates lp ≠ []) :
    dget (roundStep e r).candidates lp = [] ∧
    ∀ b ∈ dget e.candidates lp,
      (∃ c, firstNonElim (lp :: e.eliminated) b.ranking = some c ∧
        c ∉ lp :: e.eliminated ∧ c ≠ lp ∧
        b ∈ dget (roundStep e r).candidates c ∧
        List.count b (dget (roundStep e r).candidates c) =
          List.count b (dget e.candidates c) + List.count b (dget e.candidates lp) ∧
        ∀ c2, c2 ≠ c → c2 ≠ lp →
          List.count b (dget (roundStep e r).candidates c2) =
            List.count b (dget e.candidates c2)) ∨
      (firstNonElim (lp :: e.eliminated) b.ranking = none ∧
        (∀ c ∈ b.ranking, c ∈ lp :: e.eliminated) ∧
        ∀ c2, c2 ≠ lp →
          List.count b (dget (roundStep e r).candidates c2) =
            List.count b (dget e.candidates c2)) := by
  subst hlp
  have h0 : ¬ (dget e.candidates (resolve_tie_random e r)).length = 0 :=
    fun h => hB (List.length_eq_zero.mp h)
  rw [roundStep_eq_transfer e r h0, roundStepTransfer_candidates]
  set lp := resolve_tie_random e r with hlpdef
  have hget : ∀ c2, c2 ≠ lp →
      dget (ddel (transferBallots (lp :: e.eliminated) (e.candidates, [])
        (dget e.candidates lp)).1 lp) c2 =
      dget e.candidates c2 ++ (dget e.candidates lp).filter
        (fun b2 => decide (firstNonElim (lp :: e.eliminated) b2.ranking = some c2)) := by
    intro c2 hc2
    rw [dget_ddel_ne _ hc2, transferBallots_fst_lookup]
  refine ⟨dget_ddel_self _ _, ?_⟩
  intro b hb
  rcases hf : firstNonElim (lp :: e.eliminated) b.ranking with _ | c
  · right
    refine ⟨rfl, firstNonElim_eq_none_iff.mp hf, ?_⟩
    intro c2 hc2
    rw [hget c2 hc2, List.count_append]
    have hz : List.count b ((dget e.candidates lp).filter
        (fun b2 => decide (firstNonElim (lp :: e.eliminated) b2.ranking = some c2))) = 0 := by
      apply List.count_eq_zero_of_not_mem
      intro hmem
      have h2 := (List.mem_filter.mp hmem).2
      simp only [decide_eq_true_eq] at h2
      rw [hf] at h2
      exact Option.noConfusion h2
    omega
  · obtain ⟨hcr, hcnel⟩ := firstNonElim_eq_some hf
    have hclp : c ≠ lp := fun h => hcnel (h ▸ List.mem_cons_self _ _)
    left
    refine ⟨c, rfl, hcnel, hclp, ?_, ?_, ?_⟩
    · rw [hget c hclp]
      exact List.mem_append_right _ (List.mem_filter.mpr ⟨hb, by simp [hf]⟩)
    · rw [hget c hclp, List.count_append, List.count_filter (by simp [hf])]
    · intro c2 hc2c hc2lp
      rw [hget c2 hc2lp, List.count_append]
      have hz : List.count b ((dget e.candidates lp).filter
          (fun b2 => decide (firstNonElim (lp :: e.eliminated) b2.ranking = some c2))) = 0 := by
        apply List.count_eq_zero_of_not_mem
        intro hmem
        have h2 := (List.mem_filter.mp hmem).2
        simp only [decide_eq_true_eq] at h2
        rw [hf] at h2
        exact hc2c (Option.some.inj h2).symm
      omega

theorem C1_transfer_correctness_witness :
    (resolve_tie_random wRound1 0 = 1 ∧ dget wRound1.candidates 1 ≠ []) ∧
    dget (roundStep wRound1 0).candidates 1 = [] :=
  ⟨⟨by decide, by decide⟩,
    (C1_transfer_correctness wRound1 0 1 (by decide) (by decide)).1⟩

/-! ## Claim C2: ballot conservation at every round boundary -/

/-- C2.  At every round boundary of the single-winner run (after the
initial assignment, `k = 0`, and after each elimination round `k`), the
ballots assigned to active candidates plus the exhausted ballots account
for every ballot of the election. -/
theorem C2_conservation (reg : List Cand) (bs : List Ballot) (χ : Nat → Nat) (k : Nat)
    (hreg : reg.Nodup) (hwf : WFballots reg bs) :
    assignedTotal (runRounds χ k (postAssign (Election.start bs reg))) +
      exhaustedCount (runRounds χ k (postAssign (Election.start bs reg))) = bs.length :=
  conservation_of_inv hreg hwf (runRounds_inv χ hreg hwf k _ (postAssign_inv reg bs hreg hwf))

theorem C2_conservation_witness :
    (wCands.Nodup ∧ WFballots wCands wBallots) ∧
    assignedTotal (runRounds chi0 1 (postAssign (Election.start wBallots wCands))) +
      exhaustedCount (runRounds chi0 1 (postAssign (Election.start wBallots wCands))) =
      wBallots.length :=
  ⟨⟨by decide, by unfold WFballots; decide⟩,
    C2_conservation wCands wBallots chi0 1 (by decide) (by unfold WFballots; decide)⟩

/-! ## Claim C3: termination and monotone elimination -/

/-- C3.  For an election with at least one registered candidate the loop
stabilises after at most `total_candidate_count - 1` rounds (any larger
fuel gives the same state); the eliminated set has size `min k (n-1)`
after `k` rounds, so it grows by exactly one per round until termination;
each executed round eliminates a previously-active, not-yet-eliminated
candidate; and no candidate is ever eliminated twice. -/
theorem C3_termination (reg : List Cand) (bs : List Ballot) (χ : Nat → Nat)
    (_hone : 1 ≤ reg.length) (hreg : reg.Nodup) (hwf : WFballots reg bs) :
    (∀ fuel, reg.length - 1 ≤ fuel →
      runRounds χ fuel (postAssign (Election.start bs reg)) =
        runRounds χ (reg.length - 1) (postAssign (Election.start bs reg))) ∧
    (∀ k, (runRounds χ k (postAssign (Election.start bs reg))).eliminated.length =
      min k (reg.length - 1)) ∧
    (∀ k, k < reg.length - 1 → ∃ lp,
      lp ∈ dkeys (runRounds χ k (postAssign (Election.start bs reg))).candidates ∧
      lp ∉ (runRounds χ k (postAssign (Election.start bs reg))).eliminated ∧
      (runRounds χ (k + 1) (postAssign (Election.start bs reg))).eliminated =
        lp :: (runRounds χ k (postAssign (Election.start bs reg))).eliminated) ∧
    (∀ k, (runRounds χ k (postAssign (Election.start bs reg))).eliminated.Nodup) := by
  refine ⟨?_, run_elim_length reg bs χ hreg hwf, ?_, ?_⟩
  · intro fuel hf
    obtain ⟨m, hm⟩ := Nat.le.dest hf
    rw [← hm]
    exact run_stable reg bs χ hreg hwf m
  · intro k hk
    have hinvk := runRounds_inv χ hreg hwf k _ (postAssign_inv reg bs hreg hwf)
    have hg : (runRounds χ k (postAssign (Election.start bs reg))).eliminated.length <
        (runRounds χ k (postAssign (Election.start bs reg))).number_of_candidates - 1 := by
      rw [run_elim_length reg bs χ hreg hwf k, hinvk.hn]
      omega
    have hstep := roundStep_inv
      (χ (runRounds χ k (postAssign (Election.start bs reg))).eliminated.length)
      hreg hwf hinvk hg
    refine ⟨_, hstep.1, hstep.2.1, ?_⟩
    rw [runRounds_succ, if_pos hg]
    exact hstep.2.2.1
  · intro k
    exact (runRounds_inv χ hreg hwf k _ (postAssign_inv reg bs hreg hwf)).helim_nd

theorem C3_termination_witness :
    (1 ≤ wCands.length ∧ wCands.Nodup) ∧
    (runRounds chi0 1 (postAssign (Election.start wBallots wCands))).eliminated.length =
      min 1 (wCands.length - 1) :=
  ⟨⟨by decide, by decide⟩,
    (C3_termination wCands wBallots chi0 (by decide) (by decide)
      (by unfold WFballots; decide)).2.1 1⟩

/-! ## Claim C4: the tie-break draws uniformly among all minimum-count candidates -/

/-- C4.  `tallyMin` is the minimum current ballot count; the tie list
contains exactly the active candidates whose count equals it (membership
over the full ranking, not only adjacent entries), without duplicates; and
the random draw is a bijection between the residues below the tie list's
length and the tie list — a uniform draw over the indices is a uniform
choice among all tied candidates. -/
theorem C4_tie_break_uniform (e : Election) (hne : e.candidates ≠ [])
    (hnd : (dkeys e.candidates).Nodup) :
    (∀ c ∈ dkeys e.candidates, tallyMin e ≤ countOf e c) ∧
    (∀ c, c ∈ tiedCandidates e ↔ c ∈ dkeys e.candidates ∧ countOf e c = tallyMin e) ∧
    (tiedCandidates e).Nodup ∧
    (∀ r, resolve_tie_random e r ∈ tiedCandidates e) ∧
    (∀ c ∈ tiedCandidates e,
      ∃ r, r < (tiedCandidates e).length ∧ resolve_tie_random e r = c) ∧
    (∀ i j, i < (tiedCandidates e).length → j < (tiedCandidates e).length →
      resolve_tie_random e i = resolve_tie_random e j → i = j) := by
  have hrevperm : ((sort_candidates e).reverse).Perm (dkeys e.candidates) :=
    (List.reverse_perm _).trans (sort_candidates_perm e)
  have hrevnd : ((sort_candidates e).reverse).Nodup := hrevperm.nodup_iff.mpr hnd
  have htiednd : (tiedCandidates e).Nodup := hrevnd.filter _
  have htne : tiedCandidates e ≠ [] := tiedCandidates_ne_nil hne
  have htlen : 0 < (tiedCandidates e).length := List.length_pos.mpr htne
  have hresolve : ∀ i, i < (tiedCandidates e).length →
      resolve_tie_random e i = (tiedCandidates e).getD i 0 := by
    intro i hi
    unfold resolve_tie_random
    rw [Nat.mod_eq_of_lt hi]
  refine ⟨tallyMin_le e, ?_, htiednd, fun r => resolve_tie_random_mem_tied hne r, ?_, ?_⟩
  · intro c
    constructor
    · intro hc
      have h1 := List.mem_of_mem_filter hc
      have h2 := (List.mem_filter.mp hc).2
      exact ⟨hrevperm.mem_iff.mp h1, by simpa using h2⟩
    · intro ⟨h1, h2⟩
      exact List.mem_filter.mpr ⟨hrevperm.mem_iff.mpr h1, by simpa using h2⟩
  · intro c hc
    obtain ⟨i, hi, hgi⟩ := List.getElem_of_mem hc
    refine ⟨i, hi, ?_⟩
    rw [hresolve i hi, List.getD_eq_getElem _ _ hi, hgi]
  · intro i j hi hj hij
    rw [hresolve i hi, hresolve j hj, List.getD_eq_getElem _ _ hi,
      List.getD_eq_getElem _ _ hj] at hij
    exact (htiednd.getElem_inj_iff).mp hij

theorem C4_tie_break_uniform_witness :
    (tieElection.candidates ≠ [] ∧ (dkeys tieElection.candidates).Nodup) ∧
    resolve_tie_random tieElection 5 ∈ tiedCandidates tieElection :=
  ⟨⟨by decide, by decide⟩,
    (C4_tie_break_uniform tieElection (by decide) (by decide)).2.2.2.1 5⟩

/-! ## Claim C5: degenerate elections -/

/-- Counterexample to C5 as stated: with zero registered candidates the
run fails, but with the uncaught `IndexError` of
`list(self.candidates.keys())[0]` — the class `NoCandidatesError` named by
the specification does not exist in the source and is never raised. -/
theorem C5_counterexample :
    single_winner_rcv (Election.start [] []) chi0 = Except.error PyError.indexError ∧
    Except.error PyError.indexError ≠
      (Except.error PyError.noCandidatesError : Except PyError Election) := by
  constructor
  · rfl
  · intro h
    have h2 := Except.error.inj h
    exact PyError.noConfusion h2

/-- C5 amended.  With zero candidates (and no ballots) the run fails with
`IndexError` (not a `NoCandidatesError`); with exactly one registered
candidate and well-formed ballots it terminates immediately: zero
elimination rounds and that candidate set as winner. -/
theorem C5_degenerate (χ : Nat → Nat) (c : Cand) (bs : List Ballot)
    (hwf : WFballots [c] bs) :
    single_winner_rcv (Election.start [] []) χ = Except.error PyError.indexError ∧
    ∃ f, single_winner_rcv (Election.start bs [c]) χ = Except.ok f ∧
      f.winner = some c ∧ f.eliminated = [] := by
  constructor
  · rfl
  · have hheads : ∀ b ∈ bs,
        b.ranking.headD 0 ∈ dkeys ([c].map (fun c => (c, ([] : List Ballot)))) := by
      intro b hb
      obtain ⟨hne, hsub⟩ := hwf b hb
      rw [dkeys_start]
      exact hsub _ (headD_mem hne 0)
    have e2keys : dkeys (postAssign (Election.start bs [c])).candidates = [c] := by
      show dkeys (assignLoop ([c].map (fun c => (c, []))) bs) = [c]
      rw [assignLoop_keys bs _ hheads, dkeys_start]
    have hn1 : (postAssign (Election.start bs [c])).number_of_candidates = 1 := rfl
    have helim : (postAssign (Election.start bs [c])).eliminated = [] := rfl
    have hguard : ¬ (postAssign (Election.start bs [c])).eliminated.length <
        (postAssign (Election.start bs [c])).number_of_candidates - 1 := by
      rw [helim, hn1]
      simp
    have he3 : runRounds χ (postAssign (Election.start bs [c])).number_of_candidates
        (postAssign (Election.start bs [c])) = postAssign (Election.start bs [c]) :=
      runRounds_of_not_lt hguard _
    have hres : single_winner_rcv (Election.start bs [c]) χ =
        Except.ok { postAssign (Election.start bs [c]) with winner := some c } := by
      simp only [single_winner_rcv]
      rw [he3, e2keys]
    exact ⟨_, hres, rfl, helim⟩

theorem C5_degenerate_witness :
    WFballots [0] [⟨1, [0]⟩] ∧
    single_winner_rcv (Election.start [] []) chi0 = Except.error PyError.indexError :=
  ⟨by unfold WFballots; decide,
    (C5_degenerate chi0 0 [⟨1, [0]⟩] (by unfold WFballots; decide)).1⟩

/-! ## Claim C6: the summary query's exhausted-ballot count -/

/-- C6 names a code bug.  The claim (and the spec) say the reported
"Exhausted ballots" value is `total - assigned`; but `__repr__` computes
`active_ballots = num_ballots - assigned` and then prints
`num_ballots - active_ballots`, i.e. the *assigned* count.  First
conjunct: on every state the printed fourth integer equals the assigned
total.  Second conjunct: on the concrete `wStart` run (one genuinely
exhausted ballot) the printed quadruple is `(3, 3, 1, 2)` while the true
exhausted count `total - assigned` is `1`. -/
theorem C6_repr_exhausted_bug :
    (∀ e : Election, (reprStats e).2.2.2 = (assignedTotal e : Int)) ∧
    (single_winner_rcv wStart chi0).map
        (fun f => (reprStats f, (f.ballots.length : Int) - (assignedTotal f : Int))) =
      Except.ok ((3, 3, 1, 2), 1) := by
  constructor
  · intro e
    simp only [reprStats, assignedTotal]
    omega
  · rfl

/-! ## Claim C7: value fields of the flow-graph nodes -/

/-- Counterexample to C7 as stated: in the `wStart` run the exported flow
graph contains a node at round layer 2 with no value field — so it is not
the case that every node at layer 2 carries a starting vote value. -/
theorem C7_counterexample :
    (single_winner_rcv wStart chi0).map
        (fun f => decide (∀ nd ∈ f.sankey_nodes, nd.layer = 2 → nd.value.isSome)) =
      Except.ok false := by
  rfl

/-- C7 amended.  Every node carries a candidate name and a round layer (by
construction), and carries a starting vote value exactly when its layer
is 1: the initial layer-1 nodes all have values, and every node appended
at a later layer (2 or more) has none. -/
theorem C7_nodes_values (reg : List Cand) (bs : List Ballot) (χ : Nat → Nat)
    (hreg : reg.Nodup) (hwf : WFballots reg bs) (f : Election)
    (hrun : single_winner_rcv (Election.start bs reg) χ = Except.ok f) :
    ∀ nd ∈ f.sankey_nodes, (nd.value.isSome ↔ nd.layer = 1) := by
  have hinv := runRounds_inv χ hreg hwf
    ((postAssign (Election.start bs reg)).number_of_candidates) _
    (postAssign_inv reg bs hreg hwf)
  simp only [single_winner_rcv] at hrun
  rcases hk : dkeys (runRounds χ (postAssign (Election.start bs reg)).number_of_candidates
      (postAssign (Election.start bs reg))).candidates with _ | ⟨c, rest⟩
  · rw [hk] at hrun
    simp at hrun
  · rw [hk] at hrun
    simp only [Except.ok.injEq] at hrun
    subst hrun
    intro nd hnd
    exact hinv.hnodes nd hnd

/-! ## Claim C8: the shuffle count -/

theorem riffleLeastK_spec (n : Nat) : n ^ 3 ≤ 4 ^ riffleLeastK n :=
  Nat.find_spec (⟨n ^ 3, le_trans (Nat.le_of_lt (Nat.lt_two_pow (n ^ 3)))
    (Nat.pow_le_pow_left (by norm_num) (n ^ 3))⟩ : ∃ k, n ^ 3 ≤ 4 ^ k)

theorem riffleLeastK_min (n m : Nat) (h : m < riffleLeastK n) : ¬ n ^ 3 ≤ 4 ^ m :=
  Nat.find_min (⟨n ^ 3, le_trans (Nat.le_of_lt (Nat.lt_two_pow (n ^ 3)))
    (Nat.pow_le_pow_left (by norm_num) (n ^ 3))⟩ : ∃ k, n ^ 3 ≤ 4 ^ k) h

/-- For `n ≥ 1`, the least `k` with `n³ ≤ 4^k` is exactly
`⌈(3/2) · log2 n⌉`: `k ≥ (3/2)·log2 n  ↔  2k ≥ log2 (n³)  ↔  n³ ≤ 4^k`. -/
theorem riffleLeastK_eq_ceil (n : Nat) (hn : 1 ≤ n) :
    (riffleLeastK n : Int) = ⌈(3 / 2 : ℝ) * Real.logb 2 n⌉ := by
  have hnR : (1 : ℝ) ≤ (n : ℝ) := by exact_mod_cast hn
  have hn3 : (0 : ℝ) < (n : ℝ) ^ 3 := by positivity
  have hupper : (3 / 2 : ℝ) * Real.logb 2 n ≤ (riffleLeastK n : ℝ) := by
    have hle : ((n : ℝ)) ^ 3 ≤ (2 : ℝ) ^ (2 * riffleLeastK n) := by
      have hc : ((n ^ 3 : ℕ) : ℝ) ≤ ((4 ^ riffleLeastK n : ℕ) : ℝ) := by
        exact_mod_cast riffleLeastK_spec n
      calc ((n : ℝ)) ^ 3 = ((n ^ 3 : ℕ) : ℝ) := by push_cast; ring
        _ ≤ ((4 ^ riffleLeastK n : ℕ) : ℝ) := hc
        _ = (2 : ℝ) ^ (2 * riffleLeastK n) := by
            push_cast
            rw [show (4 : ℝ) = 2 ^ 2 by norm_num, ← pow_mul]
    have hlog := Real.logb_le_logb_of_le (b := 2) (by norm_num) hn3 hle
    rw [Real.logb_pow, Real.logb_pow, Real.logb_self_eq_one (by norm_num)] at hlog
    push_cast at hlog ⊢
    linarith
  have hlower : (riffleLeastK n : ℝ) - 1 < (3 / 2 : ℝ) * Real.logb 2 n := by
    rcases hK : riffleLeastK n with _ | m
    · have h0 : (0 : ℝ) ≤ Real.logb 2 n := Real.logb_nonneg (by norm_num) hnR
      norm_num
      linarith
    · have hmin : ¬ (n ^ 3 ≤ 4 ^ m) := riffleLeastK_min n m (by omega)
      push_neg at hmin
      have hlt : (2 : ℝ) ^ (2 * m) < ((n : ℝ)) ^ 3 := by
        have hc : ((4 ^ m : ℕ) : ℝ) < ((n ^ 3 : ℕ) : ℝ) := by exact_mod_cast hmin
        calc (2 : ℝ) ^ (2 * m) = ((4 ^ m : ℕ) : ℝ) := by
              push_cast
              rw [show (4 : ℝ) = 2 ^ 2 by norm_num, ← pow_mul]
          _ < ((n ^ 3 : ℕ) : ℝ) := hc
          _ = ((n : ℝ)) ^ 3 := by push_cast; ring
      have hlog := Real.logb_lt_logb (b := 2) (by norm_num) (by positivity) hlt
      rw [Real.logb_pow, Real.logb_pow, Real.logb_self_eq_one (by norm_num)] at hlog
      push_cast at hlog ⊢
      linarith
  symm
  rw [Int.ceil_eq_iff]
  constructor
  · push_cast
    exact hlower
  · push_cast
    exact hupper

/-- Counterexample to C8 as stated: on the empty sequence the source
raises `ValueError` (`math.log2(0)` and `random.randrange(0, 0)`) instead
of performing zero shuffles and returning normally. -/
theorem C8_counterexample : riffle 0 0 = none ∧ riffle 0 0 ≠ some 0 := by
  constructor
  · rfl
  · intro h
    exact Option.noConfusion (h.symm.trans rfl)

/-- C8 amended.  For every sequence of length `n ≥ 1` the shuffle utility
performs exactly `⌈(3/2)·log2 n + U⌉ = riffleLeastK n + U` full in-place
shuffles, where `U = randrange(0, n)`, and returns normally (for `n = 1`,
`U = 0` and the count is zero); for `n = 0` the call fails with
`ValueError` (`riffle 0 u = none`, `C8_counterexample`). -/
theorem C8_riffle_count (n u : Nat) (hn : 1 ≤ n) :
    riffle n u = some (riffleLeastK n + u) ∧
    ((riffleLeastK n + u : Nat) : Int) = ⌈(3 / 2 : ℝ) * Real.logb 2 n + u⌉ := by
  constructor
  · unfold riffle
    rw [if_neg (by omega)]
  · rw [show ((3 / 2 : ℝ) * Real.logb 2 n + u) = ((3 / 2 : ℝ) * Real.logb 2 n + (u : ℤ)) by
      push_cast; ring]
    rw [Int.ceil_add_int, ← riffleLeastK_eq_ceil n hn]
    push_cast
    ring

theorem C8_riffle_count_witness :
    1 ≤ 1 ∧
    (riffle 1 0 = some (riffleLeastK 1 + 0) ∧
      ((riffleLeastK 1 + 0 : Nat) : Int) = ⌈(3 / 2 : ℝ) * Real.logb 2 (1 : Nat) + (0 : Nat)⌉) :=
  ⟨le_refl 1, C8_riffle_count 1 0 (le_refl 1)⟩

/-! ## Claim C9: frame effect of a zero-ballot round -/

theorem roundStepTransfer_links_length (e : Election) (lp : Cand) :
    (roundStepTransfer e lp).sankey_links.length =
      e.sankey_links.length +
        ((dkeys (roundStepTransfer e lp).candidates).filter (fun c => c ≠ lp)).length +
        (transferBallots (lp :: e.eliminated) (e.candidates, [])
          (dget e.candidates lp)).2.length := by
  simp only [roundStepTransfer]
  simp [List.length_append]
  omega

/-- C9.  First part: a round whose eliminated candidate holds zero ballots
only moves that candidate from the active mapping into the eliminated set;
the flow graph (nodes and links) and every other candidate's ballot list
are untouched, and no transfers happen.  Second part: a round whose
eliminated candidate holds at least one ballot, in an election that still
has another active candidate, strictly extends both the node and the link
lists of the flow graph. -/
theorem C9_zero_ballot_frame (e : Election) (r : Nat) :
    (dget e.candidates (resolve_tie_random e r) = [] →
      (roundStep e r).sankey_nodes = e.sankey_nodes ∧
      (roundStep e r).sankey_links = e.sankey_links ∧
      (roundStep e r).eliminated = resolve_tie_random e r :: e.eliminated ∧
      resolve_tie_random e r ∉ dkeys (roundStep e r).candidates ∧
      (∀ c2, c2 ≠ resolve_tie_random e r →
        dget (roundStep e r).candidates c2 = dget e.candidates c2)) ∧
    (dget e.candidates (resolve_tie_random e r) ≠ [] →
      (∃ c, c ∈ dkeys e.candidates ∧ c ≠ resolve_tie_random e r ∧ c ∉ e.eliminated) →
      e.sankey_nodes.length < (roundStep e r).sankey_nodes.length ∧
      e.sankey_links.length < (roundStep e r).sankey_links.length) := by
  constructor
  · intro h0
    have h0len : (dget e.candidates (resolve_tie_random e r)).length = 0 := by
      rw [h0]
      rfl
    rw [roundStep_eq_skip e r h0len]
    refine ⟨rfl, rfl, rfl, ?_, ?_⟩
    · intro hmem
      rw [dkeys_ddel] at hmem
      have h2 := (List.mem_filter.mp hmem).2
      simp at h2
    · intro c2 hc2
      exact dget_ddel_ne _ hc2
  · intro h0 hex
    obtain ⟨c, hck, hclp, hcnel⟩ := hex
    have h0' : ¬ (dget e.candidates (resolve_tie_random e r)).length = 0 :=
      fun h => h0 (List.length_eq_zero.mp h)
    rw [roundStep_eq_transfer e r h0']
    have hckeys2 : c ∈ dkeys (roundStepTransfer e (resolve_tie_random e r)).candidates := by
      rw [roundStepTransfer_candidates, dkeys_ddel]
      exact List.mem_filter.mpr
        ⟨transferBallots_keys_mono _ _ _ _ _ hck, by simpa using hclp⟩
    constructor
    · rw [roundStepTransfer_nodes, List.length_append, List.length_map]
      have hmem : c ∈ (dkeys (roundStepTransfer e
          (resolve_tie_random e r)).candidates).filter
            (fun c2 => c2 ∉ resolve_tie_random e r :: e.eliminated) :=
        List.mem_filter.mpr ⟨hckeys2, by simp [hclp, hcnel]⟩
      have hpos := List.length_pos.mpr (List.ne_nil_of_mem hmem)
      omega
    · rw [roundStepTransfer_links_length]
      have hmem : c ∈ (dkeys (roundStepTransfer e
          (resolve_tie_random e r)).candidates).filter
            (fun c2 => c2 ≠ resolve_tie_random e r) :=
        List.mem_filter.mpr ⟨hckeys2, by simp [hclp]⟩
      have hpos := List.length_pos.mpr (List.ne_nil_of_mem hmem)
      omega

theorem C9_zero_ballot_frame_witness :
    (dget (postAssign wStart).candidates (resolve_tie_random (postAssign wStart) 0) = [] ∧
      (roundStep (postAssign wStart) 0).sankey_nodes = (postAssign wStart).sankey_nodes) ∧
    (dget wRound1.candidates (resolve_tie_random wRound1 0) ≠ [] ∧
      wRound1.sankey_nodes.length < (roundStep wRound1 0).sankey_nodes.length) :=
  ⟨⟨by decide, ((C9_zero_ballot_frame (postAssign wStart) 0).1 (by decide)).1⟩,
   ⟨by decide, ((C9_zero_ballot_frame wRound1 0).2 (by decide)
      ⟨0, by decide, by decide, by decide⟩).1⟩⟩

theorem C7_nodes_values_witness :
    (wCands.Nodup ∧ single_winner_rcv wStart chi0 = Except.ok wFinal ∧
      SankeyNode.mk 0 2 none ∈ wFinal.sankey_nodes) ∧
    ((SankeyNode.mk 0 2 none).value.isSome ↔ (SankeyNode.mk 0 2 none).layer = 1) :=
  ⟨⟨by decide, by rfl, by decide⟩,
    C7_nodes_values wCands wBallots chi0 (by decide) (by unfold WFballots; decide)
      wFinal (by rfl) (SankeyNode.mk 0 2 none) (by decide)⟩

/-! ## Claim C10: ballot weights never influence the computation -/

theorem stripB_ranking (b : Ballot) : (stripB b).ranking = b.ranking := rfl

theorem dkeys_stripD (d : List (Cand × List Ballot)) : dkeys (stripD d) = dkeys d := by
  induction d with
  | nil => rfl
  | cons p rest ih =>
    rw [show stripD (p :: rest) = (p.1, p.2.map stripB) :: stripD rest from rfl,
      dkeys_cons, dkeys_cons, ih]

theorem dget_stripD (d : List (Cand × List Ballot)) (c : Cand) :
    dget (stripD d) c = (dget d c).map stripB := by
  induction d with
  | nil => rfl
  | cons p rest ih =>
    by_cases h : p.1 = c
    · simp [stripD, dget, alookup, h]
    · simpa [stripD, dget, alookup, h] using ih

theorem stripD_alUpdate (d : List (Cand × List Ballot)) (c : Cand) (b : Ballot) :
    stripD (alUpdate d c (fun l => l ++ [b]) [b]) =
      alUpdate (stripD d) c (fun l => l ++ [stripB b]) [stripB b] := by
  induction d with
  | nil => simp [stripD, alUpdate]
  | cons p rest ih =>
    by_cases h : p.1 = c
    · simp [stripD, alUpdate, h]
    · simp only [stripD, List.map_cons] at ih ⊢
      simp [alUpdate, h, ih]

theorem stripD_ddel (d : List (Cand × List Ballot)) (c : Cand) :
    stripD (ddel d c) = ddel (stripD d) c := by
  induction d with
  | nil => rfl
  | cons p rest ih =>
    by_cases h : p.1 = c
    · rw [show ddel (p :: rest) c = ddel rest c from by simp [ddel, h], ih,
        show stripD (p :: rest) = (p.1, p.2.map stripB) :: stripD rest from rfl,
        show ddel ((p.1, p.2.map stripB) :: stripD rest) c = ddel (stripD rest) c from by
          simp [ddel, h]]
    · rw [show ddel (p :: rest) c = p :: ddel rest c from by simp [ddel, h],
        show stripD (p :: ddel rest c) =
          (p.1, p.2.map stripB) :: stripD (ddel rest c) from rfl, ih,
        show stripD (p :: rest) = (p.1, p.2.map stripB) :: stripD rest from rfl,
        show ddel ((p.1, p.2.map stripB) :: stripD rest) c =
          (p.1, p.2.map stripB) :: ddel (stripD rest) c from by simp [ddel, h]]

theorem stripE_candidates (e : Election) : (stripE e).candidates = stripD e.candidates := rfl

theorem stripE_eliminated (e : Election) : (stripE e).eliminated = e.eliminated := rfl

theorem stripE_number (e : Election) :
    (stripE e).number_of_candidates = e.number_of_candidates := rfl

theorem countOf_stripE (e : Election) : countOf (stripE e) = countOf e := by
  funext c
  show (dget (stripD e.candidates) c).length = _
  rw [dget_stripD, List.length_map]
  rfl

theorem sort_candidates_stripE (e : Election) :
    sort_candidates (stripE e) = sort_candidates e := by
  unfold sort_candidates
  rw [countOf_stripE, stripE_candidates, dkeys_stripD]

theorem tallyMin_stripE (e : Election) : tallyMin (stripE e) = tallyMin e := by
  unfold tallyMin
  rw [countOf_stripE, sort_candidates_stripE]

theorem tiedCandidates_stripE (e : Election) :
    tiedCandidates (stripE e) = tiedCandidates e := by
  unfold tiedCandidates
  rw [countOf_stripE, sort_candidates_stripE, tallyMin_stripE]

theorem resolve_tie_random_stripE (e : Election) (r : Nat) :
    resolve_tie_random (stripE e) r = resolve_tie_random e r := by
  unfold resolve_tie_random
  rw [tiedCandidates_stripE]

theorem startingValues_stripE (e : Election) :
    startingValues (stripE e) = startingValues e := by
  unfold startingValues
  rw [stripE_candidates]
  show (e.candidates.map (fun p => (p.1, p.2.map stripB))).map _ = _
  rw [List.map_map]
  apply List.map_congr_left
  intro p _
  simp

theorem transferBallots_stripE (elim : List Cand) (bs : List Ballot) :
    ∀ (cands : List (Cand × List Ballot)) (acc : List (Cand × Nat)),
      transferBallots elim (stripD cands, acc) (bs.map stripB) =
        (stripD (transferBallots elim (cands, acc) bs).1,
          (transferBallots elim (cands, acc) bs).2) := by
  induction bs with
  | nil => intro cands acc; rfl
  | cons b rest ih =>
    intro cands acc
    rcases hf : firstNonElim elim b.ranking with _ | c
    · rw [show (b :: rest).map stripB = stripB b :: rest.map stripB from rfl]
      rw [show transferBallots elim (stripD cands, acc) (stripB b :: rest.map stripB) =
        transferBallots elim (stripD cands, acc) (rest.map stripB) from by
          simp only [transferBallots, stripB_ranking, hf]]
      rw [show transferBallots elim (cands, acc) (b :: rest) =
        transferBallots elim (cands, acc) rest from by
          simp only [transferBallots, hf]]
      exact ih cands acc
    · rw [show (b :: rest).map stripB = stripB b :: rest.map stripB from rfl]
      rw [show transferBallots elim (stripD cands, acc) (stripB b :: rest.map stripB) =
        transferBallots elim
          (alUpdate (stripD cands) c (fun l => l ++ [stripB b]) [stripB b],
            alUpdate acc c (fun n => n + 1) 1) (rest.map stripB) from by
          simp only [transferBallots, stripB_ranking, hf]]
      rw [show transferBallots elim (cands, acc) (b :: rest) =
        transferBallots elim
          (alUpdate cands c (fun l => l ++ [b]) [b],
            alUpdate acc c (fun n => n + 1) 1) rest from by
          simp only [transferBallots, hf]]
      rw [← stripD_alUpdate]
      exact ih _ _

theorem roundStepTransfer_stripE (e : Election) (lp : Cand) :
    roundStepTransfer (stripE e) lp = stripE (roundStepTransfer e lp) := by
  simp only [roundStepTransfer, stripE_candidates, stripE_eliminated, startingValues_stripE,
    dget_stripD, transferBallots_stripE, ← stripD_ddel, dkeys_stripD]
  rfl

theorem roundStep_stripE (e : Election) (r : Nat) :
    roundStep (stripE e) r = stripE (roundStep e r) := by
  by_cases h0 : (dget e.candidates (resolve_tie_random e r)).length = 0
  · have h0s : (dget (stripE e).candidates (resolve_tie_random (stripE e) r)).length = 0 := by
      rw [resolve_tie_random_stripE, stripE_candidates, dget_stripD, List.length_map]
      exact h0
    rw [roundStep_eq_skip e r h0, roundStep_eq_skip (stripE e) r h0s,
      resolve_tie_random_stripE, stripE_candidates, stripE_eliminated, ← stripD_ddel]
    rfl
  · have h0s : ¬ (dget (stripE e).candidates (resolve_tie_random (stripE e) r)).length = 0 := by
      rw [resolve_tie_random_stripE, stripE_candidates, dget_stripD, List.length_map]
      exact h0
    rw [roundStep_eq_transfer e r h0, roundStep_eq_transfer (stripE e) r h0s,
      resolve_tie_random_stripE, roundStepTransfer_stripE]

theorem runRounds_stripE (χ : Nat → Nat) :
    ∀ (fuel : Nat) (e : Election),
      runRounds χ fuel (stripE e) = stripE (runRounds χ fuel e) := by
  intro fuel
  induction fuel with
  | zero => intro e; rfl
  | succ f ih =>
    intro e
    by_cases h : e.eliminated.length < e.number_of_candidates - 1
    · rw [show runRounds χ (f + 1) e = runRounds χ f (roundStep e (χ e.eliminated.length))
        from by simp [runRounds, h]]
      rw [show runRounds χ (f + 1) (stripE e) =
        runRounds χ f (roundStep (stripE e) (χ e.eliminated.length)) from by
          simp [runRounds, h, stripE_eliminated, stripE_number]]
      rw [roundStep_stripE]
      exact ih _
    · rw [runRounds_of_not_lt h, runRounds_of_not_lt (e := stripE e) h]

theorem assignLoop_stripE (bs : List Ballot) :
    ∀ d : List (Cand × List Ballot),
      assignLoop (stripD d) (bs.map stripB) = stripD (assignLoop d bs) := by
  induction bs with
  | nil => intro d; rfl
  | cons b rest ih =>
    intro d
    rw [show (b :: rest).map stripB = stripB b :: rest.map stripB from rfl]
    rw [show assignLoop (stripD d) (stripB b :: rest.map stripB) =
      assignLoop (alUpdate (stripD d) ((stripB b).ranking.headD 0)
        (fun l => l ++ [stripB b]) [stripB b]) (rest.map stripB) from rfl]
    rw [show assignLoop d (b :: rest) =
      assignLoop (alUpdate d (b.ranking.headD 0) (fun l => l ++ [b]) [b]) rest from rfl]
    rw [stripB_ranking, ← stripD_alUpdate]
    exact ih _

theorem initialNodes_stripD (d : List (Cand × List Ballot)) :
    initialNodes (stripD d) = initialNodes d := by
  induction d with
  | nil => rfl
  | cons p rest ih =>
    by_cases h : 0 < p.2.length
    · simp only [stripD, List.map_cons] at ih ⊢
      simp [initialNodes, List.filter_cons, h, List.length_map] at ih ⊢
      exact ih
    · simp only [stripD, List.map_cons] at ih ⊢
      simp [initialNodes, List.filter_cons, h, List.length_map] at ih ⊢
      exact ih

theorem postAssign_stripE (e : Election) :
    postAssign (stripE e) = stripE (postAssign e) := by
  simp only [postAssign, assign_ballots, stripE_candidates]
  rw [show (stripE e).ballots = e.ballots.map stripB from rfl, assignLoop_stripE,
    initialNodes_stripD]
  show _ = stripE _
  simp only [stripE]
  rw [show (stripD e.candidates).length = e.candidates.length from by
    unfold stripD; rw [List.length_map]]

theorem single_winner_stripE (e : Election) (χ : Nat → Nat) :
    single_winner_rcv (stripE e) χ = (single_winner_rcv e χ).map stripE := by
  simp only [single_winner_rcv]
  rw [postAssign_stripE,
    show (stripE (postAssign e)).number_of_candidates = (postAssign e).number_of_candidates
      from rfl,
    runRounds_stripE, stripE_candidates, dkeys_stripD]
  rcases hk : dkeys (runRounds χ (postAssign e).number_of_candidates
      (postAssign e)).candidates with _ | ⟨c, rest⟩
  · rfl
  · rfl

/-- C10.  Ballot weights never influence the computation: two elections
that agree after erasing all weights (`stripE`, i.e. they differ only in
their ballots' weight fields) produce, under the same random draws,
weight-erasure-equal runs; in particular when both runs succeed they have
identical per-candidate tallies, eliminated sequence, winner, flow graph
and Droop-quota verdict for every seat count. -/
theorem C10_weight_independence (e1 e2 : Election) (χ : Nat → Nat)
    (h : stripE e1 = stripE e2) :
    (single_winner_rcv e1 χ).map stripE = (single_winner_rcv e2 χ).map stripE ∧
    ∀ f1 f2, single_winner_rcv e1 χ = Except.ok f1 →
      single_winner_rcv e2 χ = Except.ok f2 →
      (∀ c, countOf f1 c = countOf f2 c) ∧
      f1.eliminated = f2.eliminated ∧
      f1.winner = f2.winner ∧
      f1.sankey_nodes = f2.sankey_nodes ∧
      f1.sankey_links = f2.sankey_links ∧
      (∀ seats, droop f1 seats = droop f2 seats) := by
  have hrun : (single_winner_rcv e1 χ).map stripE = (single_winner_rcv e2 χ).map stripE := by
    rw [← single_winner_stripE, ← single_winner_stripE, h]
  refine ⟨hrun, ?_⟩
  intro f1 f2 h1 h2
  rw [h1, h2] at hrun
  have hf : stripE f1 = stripE f2 := by
    simpa [Except.map] using hrun
  have hcnt : ∀ c, countOf f1 c = countOf f2 c := by
    intro c
    rw [← congrFun (countOf_stripE f1) c, ← congrFun (countOf_stripE f2) c, hf]
  have helim : f1.eliminated = f2.eliminated := by
    have hx := congrArg Election.eliminated hf
    exact hx
  have hwin : f1.winner = f2.winner := by
    have hx := congrArg Election.winner hf
    exact hx
  have hnodes : f1.sankey_nodes = f2.sankey_nodes := by
    have hx := congrArg Election.sankey_nodes hf
    exact hx
  have hlinks : f1.sankey_links = f2.sankey_links := by
    have hx := congrArg Election.sankey_links hf
    exact hx
  have hblen : f1.ballots.length = f2.ballots.length := by
    have hb := congrArg (fun e => e.ballots.length) hf
    simpa [stripE] using hb
  refine ⟨hcnt, helim, hwin, hnodes, hlinks, ?_⟩
  intro seats
  have h3 := hcnt (f1.winner.getD 0)
  unfold droop
  unfold countOf at h3
  rw [hblen, hwin]
  rw [hwin] at h3
  rw [h3]

theorem C10_weight_independence_witness :
    (stripE wStart = stripE wStartHeavy ∧
      single_winner_rcv wStart chi0 = Except.ok wFinal ∧
      single_winner_rcv wStartHeavy chi0 = Except.ok wFinalHeavy) ∧
    wFinal.winner = wFinalHeavy.winner :=
  ⟨⟨by decide, by rfl, by rfl⟩,
    ((C10_weight_independence wStart wStartHeavy chi0 (by decide)).2 wFinal wFinalHeavy
      (by rfl) (by rfl)).2.2.1⟩

end Ranked
